import Mathlib

/-!
# Verification of the Claudian path access-control core

Shallow embedding of `src/utils/path.ts` (path normalization, best-effort
realpath resolution, and vault/context/export access classification).

The program runs on Node.js.  We model the POSIX branch of the program
(`process.platform ≠ 'win32'`): JS strings are modelled as Lean `String`
(lists of characters), the Node `path.posix` module is embedded below, the
filesystem (`fs.existsSync` / `fs.realpathSync.native`) is an abstract record
of an existence predicate and a partial canonicalization function (`none`
models a thrown error), and the process environment / home directory / cwd
form an explicit environment record.  Environment-variable expansion keeps
the `isWindows` flag as an explicit parameter because the source branches on
it inside pure string code.
-/

namespace Claudian

/-! ## JS string primitives -/

/-- JS `String.prototype.startsWith`. -/
def jsStartsWith (s pre : String) : Bool :=
  List.isPrefixOf pre.data s.data

/-- JS `String.prototype.endsWith`. -/
def jsEndsWith (s suf : String) : Bool :=
  List.isSuffixOf suf.data s.data

/-- JS `String.prototype.includes` for a single character. -/
def jsIncludes (s : String) (c : Char) : Bool :=
  s.data.contains c

/-- JS `String.prototype.slice(n)`. -/
def jsDrop (s : String) (n : Nat) : String :=
  String.mk (s.data.drop n)

/-- Whitespace characters removed by JS `String.prototype.trim` (the ones
representable in practice; all list entries in this program are ordinary
paths). -/
def jsWhitespaceChar (c : Char) : Bool :=
  c = ' ' || c = '\t' || c = '\n' || c = '\r' || c = '\x0b' || c = '\x0c' ||
  c = '\u00A0' || c = '\uFEFF'

/-- JS `String.prototype.trim`. -/
def jsTrim (s : String) : String :=
  String.mk (((s.data.dropWhile jsWhitespaceChar).reverse.dropWhile jsWhitespaceChar).reverse)

/-! ## Node `path.posix` module (the platform path functions the source calls) -/

/-- Split a path into `/`-separated segments, as lists of characters
(JS `"a/b".split('/')`). -/
def splitSlash (s : String) : List (List Char) :=
  s.data.splitOn '/'

/-- One step of Node's `normalizeString`: process a single segment against the
stack of already-emitted segments (held in reverse order). -/
def normSegsStep (allowAboveRoot : Bool) (acc : List (List Char)) (seg : List Char) :
    List (List Char) :=
  if seg = [] then acc
  else if seg = ['.'] then acc
  else if seg = ['.', '.'] then
    match acc with
    | [] => if allowAboveRoot then [seg] else []
    | last :: rest => if last = ['.', '.'] then seg :: acc else rest
  else seg :: acc

/-- Node's `normalizeString`: resolve `.` and `..` segments, dropping empty
segments.  `allowAboveRoot` is true for relative paths. -/
def normalizeSegs (allowAboveRoot : Bool) (segs : List (List Char)) : List (List Char) :=
  (segs.foldl (normSegsStep allowAboveRoot) []).reverse

/-- Join segments back with `/`. -/
def joinSegs (segs : List (List Char)) : String :=
  String.mk (List.intercalate ['/'] segs)

/-- Node `path.posix.isAbsolute`. -/
def posixIsAbsolute (p : String) : Bool :=
  jsStartsWith p "/"

/-- Node `path.posix.normalize`. -/
def posixNormalize (p : String) : String :=
  if p = "" then "."
  else
    let isAbs := posixIsAbsolute p
    let trailingSep := jsEndsWith p "/"
    let core := joinSegs (normalizeSegs (!isAbs) (splitSlash p))
    if core = "" then
      if isAbs then "/" else if trailingSep then "./" else "."
    else
      let core := if trailingSep then core ++ "/" else core
      if isAbs then "/" ++ core else core

/-- Node `path.posix.resolve(...args)` with an explicit process cwd: walk the
arguments right-to-left (then the cwd) until an absolute path is found, then
normalize. -/
def posixResolve (cwd : String) (args : List String) : String :=
  let step : String × Bool → String → String × Bool := fun acc p =>
    if acc.2 then acc
    else if p = "" then acc
    else (p ++ "/" ++ acc.1, posixIsAbsolute p)
  let r := (args.reverse ++ [cwd]).foldl step ("", false)
  let core := joinSegs (normalizeSegs (!r.2) (splitSlash r.1))
  if r.2 then "/" ++ core
  else if core = "" then "." else core

/-- Node `path.posix.join`. -/
def posixJoin (args : List String) : String :=
  let joined := args.foldl
    (fun acc p =>
      if p = "" then acc
      else match acc with
        | Option.none => some p
        | some j => some (j ++ "/" ++ p))
    Option.none
  match joined with
  | Option.none => "."
  | some j => posixNormalize j

/-- Node `path.posix.dirname`: strip trailing slashes and the final segment.
`//a` has dirname `//` (POSIX double-root special case); a slash at index 0 is
never taken as the separator (so `/a` has dirname `/`). -/
def posixDirname (p : String) : String :=
  let hasRoot := jsStartsWith p "/"
  let r2 := (p.data.reverse.dropWhile (fun c => c = '/')).dropWhile (fun c => c ≠ '/')
  match r2 with
  | [] => if hasRoot then "/" else "."
  | _ :: rest =>
    if rest = [] then "/"
    else if rest = ['/'] then "//"
    else String.mk rest.reverse

/-- Node `path.posix.basename` (one-argument form): the final segment, with
trailing slashes removed. -/
def posixBasename (p : String) : String :=
  String.mk (((p.data.reverse.dropWhile (fun c => c = '/')).takeWhile (fun c => c ≠ '/')).reverse)

/-! ## Process environment model -/

/-- The ambient process state the source reads: `process.env`, `os.homedir()`
and `process.cwd()`. -/
structure JsEnv where
  envVars : List (String × String)
  homedir : String
  cwd : String

/-- First character of an env-variable name: `[A-Za-z_]`. -/
def isNameStartChar (c : Char) : Bool :=
  c.isAlpha || c = '_'

/-- Later characters of an env-variable name: `[A-Za-z0-9_]`. -/
def isWordChar (c : Char) : Bool :=
  c.isAlphanum || c = '_'

/-- Later characters of a `%NAME%` name: `[A-Za-z0-9_()]` (parentheses allowed
for variables like `ProgramFiles(x86)`). -/
def isPctNameChar (c : Char) : Bool :=
  isWordChar c || c = '(' || c = ')'

/-- JS `String.prototype.toLowerCase` (ASCII fragment). -/
def jsToLower (s : String) : String :=
  String.mk (s.data.map Char.toLower)

/-- JS `String.prototype.toUpperCase` (ASCII fragment). -/
def jsToUpper (s : String) : String :=
  String.mk (s.data.map Char.toUpper)

/-- `Object.prototype.hasOwnProperty.call(process.env, name)` plus the read
`process.env[name]`, as one exact lookup. -/
def lookupExact (envVars : List (String × String)) (key : String) : Option String :=
  (envVars.find? (fun p => decide (p.1 = key))).map (fun p => p.2)

/-- `getEnvValue` from the source: exact lookup, and on Windows fall back
through upper-case, lower-case, then a full case-insensitive scan. -/
def getEnvValue (isWindows : Bool) (envVars : List (String × String)) (key : String) :
    Option String :=
  match lookupExact envVars key with
  | some v => some v
  | Option.none =>
    if !isWindows then Option.none
    else
      match lookupExact envVars (jsToUpper key) with
      | some v => some v
      | Option.none =>
        match lookupExact envVars (jsToLower key) with
        | some v => some v
        | Option.none =>
          (envVars.find? (fun p => decide (jsToLower p.1 = jsToLower key))).map (fun p => p.2)

/-! ## The four regex-replace passes of `expandEnvironmentVariables`

Each pass models one JS `String.prototype.replace` with a global regex:
scan left to right, attempt a match at each position, on success emit the
replacement (the looked-up value, or the matched text verbatim when the
variable is unresolvable) and continue scanning after the match. -/

/-- Pass 1: `/%([A-Za-z_][A-Za-z0-9_()]*[A-Za-z0-9_)]?)%/g`.  The name part of
the pattern matches exactly a `[A-Za-z_]` followed by a run of `[A-Za-z0-9_()]`
(the trailing optional class is a subset of the starred class), and with greedy
backtracking the whole pattern matches iff the character right after the
maximal run is `%`.  The `Nat` is recursion fuel; every recursive call is on a
strictly shorter list, so the wrapper's `l.length` is always enough. -/
def scanPercentGo (lookup : String → Option String) : Nat → List Char → List Char
  | 0, _ => []
  | _ + 1, [] => []
  | fuel + 1, c :: cs =>
    if c = '%' then
      match cs with
      | [] => [c]
      | f :: rest =>
        if isNameStartChar f then
          let run := rest.takeWhile isPctNameChar
          let after := rest.drop run.length
          if after.head? = some '%' then
            (match lookup (String.mk (f :: run)) with
             | some v => v.data
             | Option.none => c :: f :: (run ++ ['%'])) ++ scanPercentGo lookup fuel after.tail
          else c :: scanPercentGo lookup fuel cs
        else c :: scanPercentGo lookup fuel cs
    else c :: scanPercentGo lookup fuel cs

/-- Pass 1 entry point. -/
def scanPercentAux (lookup : String → Option String) (l : List Char) : List Char :=
  scanPercentGo lookup l.length l

/-- Pass 2 (Windows only): `/!([A-Za-z_][A-Za-z0-9_]*)!/g`. -/
def scanBangGo (lookup : String → Option String) : Nat → List Char → List Char
  | 0, _ => []
  | _ + 1, [] => []
  | fuel + 1, c :: cs =>
    if c = '!' then
      match cs with
      | [] => [c]
      | f :: rest =>
        if isNameStartChar f then
          let run := rest.takeWhile isWordChar
          let after := rest.drop run.length
          if after.head? = some '!' then
            (match lookup (String.mk (f :: run)) with
             | some v => v.data
             | Option.none => c :: f :: (run ++ ['!'])) ++ scanBangGo lookup fuel after.tail
          else c :: scanBangGo lookup fuel cs
        else c :: scanBangGo lookup fuel cs
    else c :: scanBangGo lookup fuel cs

/-- Pass 2 entry point. -/
def scanBangAux (lookup : String → Option String) (l : List Char) : List Char :=
  scanBangGo lookup l.length l

/-- Pass 3 (Windows only): `/\$env:([A-Za-z_][A-Za-z0-9_]*)/gi` — a literal
`$env:` (case-insensitive) followed by a name, no closing delimiter. -/
def scanDollarEnvGo (lookup : String → Option String) : Nat → List Char → List Char
  | 0, _ => []
  | _ + 1, [] => []
  | fuel + 1, c :: cs =>
    if c = '$' then
      match cs with
      | e :: n :: v :: col :: f :: rest1 =>
        if e.toLower = 'e' && n.toLower = 'n' && v.toLower = 'v' && col = ':' &&
            isNameStartChar f then
          let run := rest1.takeWhile isWordChar
          (match lookup (String.mk (f :: run)) with
           | some vv => vv.data
           | Option.none => c :: e :: n :: v :: col :: f :: run) ++
            scanDollarEnvGo lookup fuel (rest1.drop run.length)
        else c :: scanDollarEnvGo lookup fuel cs
      | _ => c :: scanDollarEnvGo lookup fuel cs
    else c :: scanDollarEnvGo lookup fuel cs

/-- Pass 3 entry point. -/
def scanDollarEnvAux (lookup : String → Option String) (l : List Char) : List Char :=
  scanDollarEnvGo lookup l.length l

/-- Pass 4 (every platform):
`/\$([A-Za-z_][A-Za-z0-9_]*)|\$\\x7b([A-Za-z_][A-Za-z0-9_]*)\\x7d/g` with the
braces written literally in the source; alternation is tried left to right as
in JS, so the braced form is only reached when the character after `$` cannot
start a plain name. -/
def scanPosixGo (lookup : String → Option String) : Nat → List Char → List Char
  | 0, _ => []
  | _ + 1, [] => []
  | fuel + 1, c :: cs =>
    if c = '$' then
      match cs with
      | [] => [c]
      | f :: rest1 =>
        if isNameStartChar f then
          let run := rest1.takeWhile isWordChar
          (match lookup (String.mk (f :: run)) with
           | some v => v.data
           | Option.none => c :: f :: run) ++ scanPosixGo lookup fuel (rest1.drop run.length)
        else if f = '{' then
          match rest1 with
          | [] => c :: scanPosixGo lookup fuel cs
          | g :: rest2 =>
            if isNameStartChar g then
              let run := rest2.takeWhile isWordChar
              let after := rest2.drop run.length
              if after.head? = some '}' then
                (match lookup (String.mk (g :: run)) with
                 | some v => v.data
                 | Option.none => c :: f :: g :: (run ++ ['}'])) ++
                  scanPosixGo lookup fuel after.tail
              else c :: scanPosixGo lookup fuel cs
            else c :: scanPosixGo lookup fuel cs
        else c :: scanPosixGo lookup fuel cs
    else c :: scanPosixGo lookup fuel cs

/-- Pass 4 entry point. -/
def scanPosixAux (lookup : String → Option String) (l : List Char) : List Char :=
  scanPosixGo lookup l.length l

/-- `expandEnvironmentVariables` from the source: short-circuit when the value
contains none of `%`, `$`, `!`; otherwise run the four replace passes in
order, passes 2 and 3 only on Windows. -/
def expandEnvironmentVariables (isWindows : Bool) (envVars : List (String × String))
    (value : String) : String :=
  if !(jsIncludes value '%') && !(jsIncludes value '$') && !(jsIncludes value '!') then value
  else
    let lookup := getEnvValue isWindows envVars
    let e1 := String.mk (scanPercentAux lookup value.data)
    let e2 := if isWindows then String.mk (scanBangAux lookup e1.data) else e1
    let e3 := if isWindows then String.mk (scanDollarEnvAux lookup e2.data) else e2
    String.mk (scanPosixAux lookup e3.data)

/-- `expandHomePath` from the source: expand environment variables, then a
leading `~`, `~/` or `~\` against the home directory.  (The platform is POSIX
in this model, so the expansion pass runs with `isWindows = false`.) -/
def expandHomePath (env : JsEnv) (p : String) : String :=
  let expanded := expandEnvironmentVariables false env.envVars p
  if expanded = "~" then env.homedir
  else if jsStartsWith expanded "~/" then posixJoin [env.homedir, jsDrop expanded 2]
  else if jsStartsWith expanded "~\\" then posixJoin [env.homedir, jsDrop expanded 2]
  else expanded

/-- `translateMsysPath` from the source: on a non-Windows platform it returns
its input unchanged (the drive-letter rewrite is inside a
`process.platform === 'win32'` guard). -/
def translateMsysPath (value : String) : String :=
  value

/-- `normalizePathBeforeResolution`: environment + home expansion, then MSYS
translation. -/
def normalizePathBeforeResolution (env : JsEnv) (p : String) : String :=
  translateMsysPath (expandHomePath env p)

/-- `normalizePathForComparison`: empty/non-string inputs become `""`;
otherwise `path.normalize` (the Windows prefix-stripping and lower-casing are
inside platform guards, and `path.normalize` cannot throw on a string, so the
`catch` branch is dead on POSIX). -/
def normalizePathForComparison (value : String) : String :=
  if value = "" then "" else posixNormalize value

/-! ## Filesystem model and `resolveRealPath` -/

/-- The filesystem surface the source touches: `fs.existsSync` (never throws)
and `fs.realpathSync.native` (`Option.none` models a thrown error, e.g. a
nonexistent path). -/
structure FS where
  fexists : String → Bool
  realpath : String → Option String

/-- The upward walk of `resolveRealPath`: starting from `absolute`, keep
stripping the last segment (remembering stripped basenames, in stripping
order) until an existing ancestor canonicalizes, then re-append the remembered
segments reversed; if the filesystem root is reached, return `absolute`.
`fuel` bounds the loop for totality; `resolveRealPath` supplies more fuel than
the `dirname` chain of its (normalized, nonempty) start can consume, and the
out-of-fuel branch coincides with the no-ancestor fallback. -/
def walkUp (fs : FS) (absolute : String) : Nat → String → List String → String
  | 0, _, _ => absolute
  | fuel + 1, current, suffix =>
    match (if fs.fexists current then fs.realpath current else Option.none) with
    | some resolvedExisting =>
      if suffix.isEmpty then resolvedExisting
      else posixJoin (resolvedExisting :: suffix.reverse)
    | Option.none =>
      let parent := posixDirname current
      if parent = current then absolute
      else walkUp fs absolute fuel parent (suffix ++ [posixBasename current])

/-- `resolveRealPath` from the source: try a native realpath of the whole
path; on failure resolve it to an absolute path and walk upward. -/
def resolveRealPath (env : JsEnv) (fs : FS) (p : String) : String :=
  match fs.realpath p with
  | some r => r
  | Option.none =>
    let absolute := posixResolve env.cwd [p]
    walkUp fs absolute (absolute.length + 1) absolute []

/-! ## Access control -/

/-- The `PathAccessType` union from the source (`'export'` is a Lean keyword,
so that constructor is named `exportAccess`). -/
inductive PathAccessType where
  | vault
  | readwrite
  | context
  | exportAccess
  | none
deriving DecidableEq, Repr

/-- The per-root flag record `{ context: boolean; export: boolean }`. -/
structure RootFlags where
  context : Bool
  exportFlag : Bool
deriving DecidableEq, Repr

/-- The containment test the source writes inline everywhere:
`resolved === root || resolved.startsWith(root + path.sep)`. -/
def rootMatches (resolvedCandidate root : String) : Bool :=
  if resolvedCandidate = root then true else jsStartsWith resolvedCandidate (root ++ "/")

/-- The resolved-and-comparison-normalized vault root. -/
def vaultRealOf (env : JsEnv) (fs : FS) (vaultPath : String) : String :=
  normalizePathForComparison (resolveRealPath env fs vaultPath)

/-- Candidate resolution shared verbatim by `isPathWithinVault`, the two list
predicates and `getPathAccessType`: normalize, make absolute against the raw
vault path when relative, realpath-resolve, comparison-normalize. -/
def resolvedCandidateOf (env : JsEnv) (fs : FS) (candidatePath vaultPath : String) : String :=
  let normalizedCandidate := normalizePathBeforeResolution env candidatePath
  let absCandidate :=
    if posixIsAbsolute normalizedCandidate then normalizedCandidate
    else posixResolve env.cwd [vaultPath, normalizedCandidate]
  normalizePathForComparison (resolveRealPath env fs absCandidate)

/-- `isPathWithinVault` from the source. -/
def isPathWithinVault (env : JsEnv) (fs : FS) (candidatePath vaultPath : String) : Bool :=
  rootMatches (resolvedCandidateOf env fs candidatePath vaultPath) (vaultRealOf env fs vaultPath)

/-- Per-entry resolution used by the two list predicates (no trimming). -/
def resolveRootEntryRaw (env : JsEnv) (fs : FS) (p : String) : String :=
  normalizePathForComparison (resolveRealPath env fs (normalizePathBeforeResolution env p))

/-- `isPathInAllowedExportPaths` from the source. -/
def isPathInAllowedExportPaths (env : JsEnv) (fs : FS) (candidatePath : String)
    (allowedExportPaths : List String) (vaultPath : String) : Bool :=
  if allowedExportPaths.isEmpty then false
  else
    let resolvedCandidate := resolvedCandidateOf env fs candidatePath vaultPath
    allowedExportPaths.any fun exportPath =>
      rootMatches resolvedCandidate (resolveRootEntryRaw env fs exportPath)

/-- `isPathInAllowedContextPaths` from the source (same body, context list). -/
def isPathInAllowedContextPaths (env : JsEnv) (fs : FS) (candidatePath : String)
    (allowedContextPaths : List String) (vaultPath : String) : Bool :=
  if allowedContextPaths.isEmpty then false
  else
    let resolvedCandidate := resolvedCandidateOf env fs candidatePath vaultPath
    allowedContextPaths.any fun contextPath =>
      rootMatches resolvedCandidate (resolveRootEntryRaw env fs contextPath)

/-- `Map.prototype.get` on an insertion-ordered association list. -/
def mapGet : List (String × RootFlags) → String → Option RootFlags
  | [], _ => Option.none
  | (k', v') :: rest, k => if k' = k then some v' else mapGet rest k

/-- `Map.prototype.set`: update in place when the key exists (keeping its
position), otherwise append. -/
def mapSet : List (String × RootFlags) → String → RootFlags → List (String × RootFlags)
  | [], k, v => [(k, v)]
  | (k', v') :: rest, k, v =>
    if k' = k then (k, v) :: rest else (k', v') :: mapSet rest k v

/-- Root resolution inside `addRoot` (after trimming). -/
def resolveRootEntry (env : JsEnv) (fs : FS) (rawPath : String) : String :=
  resolveRootEntryRaw env fs (jsTrim rawPath)

/-- The `addRoot` closure of `getPathAccessType`: trim, skip empty, resolve,
merge the kind flag into the map entry. -/
def addRoot (env : JsEnv) (fs : FS) (roots : List (String × RootFlags)) (rawPath : String)
    (isExport : Bool) : List (String × RootFlags) :=
  if jsTrim rawPath = "" then roots
  else
    let resolved := resolveRootEntry env fs rawPath
    let existing := (mapGet roots resolved).getD ⟨false, false⟩
    let updated :=
      if isExport then { existing with exportFlag := true }
      else { existing with context := true }
    mapSet roots resolved updated

/-- The merged root map built by `getPathAccessType`: all context entries,
then all export entries (`?? []` turns an `undefined` list into `[]`). -/
def mergedRoots (env : JsEnv) (fs : FS)
    (allowedContextPaths allowedExportPaths : Option (List String)) :
    List (String × RootFlags) :=
  let roots := (allowedContextPaths.getD []).foldl (fun m p => addRoot env fs m p false) []
  (allowedExportPaths.getD []).foldl (fun m p => addRoot env fs m p true) roots

/-- The best-root selection loop: first matching root, replaced only by a
strictly longer matching root. -/
def selectBest (resolvedCandidate : String) :
    List (String × RootFlags) → Option (String × RootFlags) → Option (String × RootFlags)
  | [], best => best
  | (root, flags) :: rest, best =>
    if rootMatches resolvedCandidate root then
      match best with
      | Option.none => selectBest resolvedCandidate rest (some (root, flags))
      | some b =>
        if root.length > b.1.length then selectBest resolvedCandidate rest (some (root, flags))
        else selectBest resolvedCandidate rest (some b)
    else selectBest resolvedCandidate rest best

/-- The final flag-to-class mapping of `getPathAccessType`. -/
def flagsClass (flags : RootFlags) : PathAccessType :=
  if flags.context && flags.exportFlag then PathAccessType.readwrite
  else if flags.context then PathAccessType.context
  else if flags.exportFlag then PathAccessType.exportAccess
  else PathAccessType.none

/-- `getPathAccessType` from the source. -/
def getPathAccessType (env : JsEnv) (fs : FS) (candidatePath : String)
    (allowedContextPaths allowedExportPaths : Option (List String)) (vaultPath : String) :
    PathAccessType :=
  if candidatePath = "" then PathAccessType.none
  else
    let vaultReal := vaultRealOf env fs vaultPath
    let resolvedCandidate := resolvedCandidateOf env fs candidatePath vaultPath
    if rootMatches resolvedCandidate vaultReal then PathAccessType.vault
    else
      match selectBest resolvedCandidate
          (mergedRoots env fs allowedContextPaths allowedExportPaths) Option.none with
      | Option.none => PathAccessType.none
      | some best => flagsClass best.2

/-! ## Concrete demonstration environment and filesystem -/

/-- A demonstration process state: empty environment, home `/home/u`,
cwd `/cwd`. -/
def demoEnv : JsEnv :=
  ⟨[], "/home/u", "/cwd"⟩

/-- Paths that exist and canonicalize to themselves in the demonstration
filesystem. -/
def demoPaths : List String :=
  ["/", "/vault", "/vault2", "/vault2/file", "/a", "/a/b", "/a/b/c", "/cwd", "/cwd/file",
   "/real"]

/-- A demonstration filesystem: the `demoPaths` are real directories/files and
`/ctx` is a symlink to `/real`. -/
def fsDemo : FS where
  fexists := fun s => decide (s ∈ demoPaths) || decide (s = "/ctx")
  realpath := fun s =>
    if s = "/ctx" then some "/real" else if s ∈ demoPaths then some s else Option.none

/-! ## Derived notions used by the statements -/

/-- Pointwise flag implication: all flags set in `f0` are set in `f`. -/
def flagLe (f0 f : RootFlags) : Prop :=
  (f0.context = true → f.context = true) ∧ (f0.exportFlag = true → f.exportFlag = true)

/-- Shorthand for the cleaned-up form of a root list: entries trimmed, empty
results dropped. -/
def cleanList (l : List String) : List String :=
  (l.map jsTrim).filter (fun s => decide (s ≠ ""))

/-- A nonempty `[A-Za-z_][A-Za-z0-9_]*` name (the class shared by the `!NAME!`,
`$env:NAME`, `$NAME` and `$\x7bNAME\x7d` forms). -/
def validNameB (s : String) : Bool :=
  match s.data with
  | [] => false
  | f :: tail => isNameStartChar f && tail.all isWordChar

/-- A nonempty `[A-Za-z_][A-Za-z0-9_()]*` name (the `%NAME%` class, parentheses
allowed). -/
def validPctNameB (s : String) : Bool :=
  match s.data with
  | [] => false
  | f :: tail => isNameStartChar f && tail.all isPctNameChar

/-- A value free of the three trigger characters, so that substituting it
cannot ignite a later pass. -/
def noMetaB (s : String) : Bool :=
  !(jsIncludes s '%') && !(jsIncludes s '$') && !(jsIncludes s '!')

/-! ## Basic lemmas about the string primitives -/

theorem string_eq_of_data {s t : String} (h : s.data = t.data) : s = t := by
  cases s
  cases t
  exact congrArg String.mk h

theorem jsStartsWith_iff {s p : String} : jsStartsWith s p = true ↔ p.data <+: s.data := by
  simp [jsStartsWith, List.isPrefixOf_iff_prefix]

theorem string_length_data (s : String) : s.length = s.data.length := rfl

/-- The two ways `rootMatches` can hold. -/
theorem rootMatches_iff {cand r : String} :
    rootMatches cand r = true ↔ cand = r ∨ (r ++ "/").data <+: cand.data := by
  unfold rootMatches
  by_cases h : cand = r
  · simp [h]
  · simp [h, jsStartsWith_iff]

/-- Two roots that both match the same resolved candidate and have the same
string length are the same string: equal-length prefixes of one string
coincide, and an equality match forces the maximal length. -/
theorem rootMatches_eq_of_length {cand a b : String}
    (ha : rootMatches cand a = true) (hb : rootMatches cand b = true)
    (hlen : a.length = b.length) : a = b := by
  have hdla : (a ++ "/").data.length = a.data.length + 1 := by
    rw [String.data_append, List.length_append]
    rfl
  have hdlb : (b ++ "/").data.length = b.data.length + 1 := by
    rw [String.data_append, List.length_append]
    rfl
  have hdl : a.data.length = b.data.length := hlen
  rcases rootMatches_iff.mp ha with hae | hap <;>
    rcases rootMatches_iff.mp hb with hbe | hbp
  · rw [← hae, ← hbe]
  · exfalso
    have h1 : (b ++ "/").data.length ≤ cand.data.length := hbp.length_le
    have h3 : cand.data.length = a.data.length := by rw [hae]
    omega
  · exfalso
    have h1 : (a ++ "/").data.length ≤ cand.data.length := hap.length_le
    have h3 : cand.data.length = b.data.length := by rw [hbe]
    omega
  · have hor := List.prefix_or_prefix_of_prefix hap hbp
    have hlen2 : (a ++ "/").data.length = (b ++ "/").data.length := by omega
    have heq : (a ++ "/").data = (b ++ "/").data := by
      rcases hor with h | h
      · exact h.eq_of_length hlen2
      · exact (h.eq_of_length hlen2.symm).symm
    rw [String.data_append, String.data_append] at heq
    exact string_eq_of_data (List.append_cancel_right heq)

/-- `flagsClass` never produces `vault`. -/
theorem flagsClass_ne_vault (f : RootFlags) : flagsClass f ≠ PathAccessType.vault := by
  obtain ⟨c, e⟩ := f
  cases c <;> cases e <;> decide

/-! ## The best-root selection loop -/

/-- Full characterization of the selection loop: starting from an accumulator
that only ever holds a matching root, the loop returns `none` exactly when
nothing matched, and otherwise returns a matching root of maximal length drawn
from the accumulator or the list. -/
theorem selectBest_spec (cand : String) (l : List (String × RootFlags)) :
    ∀ best : Option (String × RootFlags),
      (∀ rf, best = some rf → rootMatches cand rf.1 = true) →
      ((selectBest cand l best = Option.none →
          best = Option.none ∧ ∀ rf ∈ l, rootMatches cand rf.1 = false) ∧
       (∀ rf, selectBest cand l best = some rf →
          rootMatches cand rf.1 = true ∧
          (best = some rf ∨ rf ∈ l) ∧
          (∀ rf' ∈ l, rootMatches cand rf'.1 = true → rf'.1.length ≤ rf.1.length) ∧
          (∀ rf', best = some rf' → rf'.1.length ≤ rf.1.length))) := by
  induction l with
  | nil =>
    intro best hbest
    refine ⟨fun h => ⟨by simpa [selectBest] using h, by simp⟩, fun rf h => ?_⟩
    have hb : best = some rf := by simpa [selectBest] using h
    exact ⟨hbest rf hb, Or.inl hb, by simp,
      fun rf' h' => by rw [hb] at h'; cases h'; exact Nat.le_refl _⟩
  | cons hd tl ih =>
    intro best hbest
    obtain ⟨root, flags⟩ := hd
    by_cases hm : rootMatches cand root = true
    · -- the head matches: the accumulator becomes the head or stays, whichever
      -- is longer, and is in any case `some`
      have hstep : ∃ b', selectBest cand ((root, flags) :: tl) best = selectBest cand tl b' ∧
          (∀ rf, b' = some rf → rootMatches cand rf.1 = true) ∧
          b' ≠ Option.none ∧
          (∀ rf, b' = some rf → (best = some rf ∨ rf = (root, flags))) ∧
          (∀ rf, b' = some rf → root.length ≤ rf.1.length) ∧
          (∀ rf rf', b' = some rf → best = some rf' → rf'.1.length ≤ rf.1.length) := by
        cases best with
        | none =>
          refine ⟨some (root, flags), by simp [selectBest, hm], ?_, by simp, ?_, ?_, ?_⟩
          · intro rf h; cases h; exact hm
          · intro rf h; cases h; exact Or.inr rfl
          · intro rf h; cases h; exact Nat.le_refl _
          · intro rf rf' _ h'; cases h'
        | some b =>
          by_cases hlen : root.length > b.1.length
          · refine ⟨some (root, flags), by simp [selectBest, hm, hlen], ?_, by simp, ?_, ?_, ?_⟩
            · intro rf h; cases h; exact hm
            · intro rf h; cases h; exact Or.inr rfl
            · intro rf h; cases h; exact Nat.le_refl _
            · intro rf rf' h h'; cases h; cases h'; exact Nat.le_of_lt hlen
          · refine ⟨some b, by simp [selectBest, hm, hlen], ?_, by simp, ?_, ?_, ?_⟩
            · intro rf h; cases h; exact hbest b rfl
            · intro rf h; cases h; exact Or.inl rfl
            · intro rf h; cases h; omega
            · intro rf rf' h h'; cases h; cases h'; exact Nat.le_refl _
      obtain ⟨b', heq, hb'match, hb'some, hb'src, hb'root, hb'best⟩ := hstep
      have ihspec := ih b' hb'match
      constructor
      · intro h
        rw [heq] at h
        exact absurd (ihspec.1 h).1 hb'some
      · intro rf h
        rw [heq] at h
        obtain ⟨hmatch, hsrc, hmax, haccbound⟩ := ihspec.2 rf h
        have hacc : ∃ b'', b' = some b'' := by
          cases hb'' : b' with
          | none => exact absurd hb'' hb'some
          | some b'' => exact ⟨b'', rfl⟩
        obtain ⟨b'', hb''⟩ := hacc
        have hrootbound : root.length ≤ rf.1.length :=
          Nat.le_trans (hb'root b'' hb'') (haccbound b'' hb'')
        refine ⟨hmatch, ?_, ?_, ?_⟩
        · rcases hsrc with hsrc | hsrc
          · rcases hb'src rf hsrc with h' | h'
            · exact Or.inl h'
            · exact Or.inr (by simp [h'])
          · exact Or.inr (List.mem_cons_of_mem _ hsrc)
        · intro rf' hmem hm'
          rcases List.mem_cons.mp hmem with h' | h'
          · rw [h']
            exact hrootbound
          · exact hmax rf' h' hm'
        · intro rf' hbesteq
          exact Nat.le_trans (hb'best b'' rf' hb'' hbesteq) (haccbound b'' hb'')
    · -- the head does not match: it is skipped entirely
      have heq : selectBest cand ((root, flags) :: tl) best = selectBest cand tl best := by
        simp [selectBest, hm]
      have ihspec := ih best hbest
      constructor
      · intro h
        rw [heq] at h
        obtain ⟨h1, h2⟩ := ihspec.1 h
        refine ⟨h1, fun rf hmem => ?_⟩
        rcases List.mem_cons.mp hmem with h' | h'
        · cases h'; simpa using hm
        · exact h2 rf h'
      · intro rf h
        rw [heq] at h
        obtain ⟨hmatch, hsrc, hmax, haccbound⟩ := ihspec.2 rf h
        refine ⟨hmatch, ?_, ?_, haccbound⟩
        · rcases hsrc with h' | h'
          · exact Or.inl h'
          · exact Or.inr (List.mem_cons_of_mem _ h')
        · intro rf' hmem hm'
          rcases List.mem_cons.mp hmem with h' | h'
          · cases h'; exact absurd hm' hm
          · exact hmax rf' h' hm'

/-! ## Shape of `getPathAccessType` past the vault check -/

theorem getPathAccessType_eq_select (env : JsEnv) (fs : FS) (c : String)
    (ctx exp : Option (List String)) (v : String) (hc : c ≠ "")
    (hv : rootMatches (resolvedCandidateOf env fs c v) (vaultRealOf env fs v) = false) :
    getPathAccessType env fs c ctx exp v =
      match selectBest (resolvedCandidateOf env fs c v) (mergedRoots env fs ctx exp)
          Option.none with
      | Option.none => PathAccessType.none
      | some best => flagsClass best.2 := by
  simp [getPathAccessType, hc, hv]

theorem getPathAccessType_vault_of (env : JsEnv) (fs : FS) (c : String)
    (ctx exp : Option (List String)) (v : String) (hc : c ≠ "")
    (hv : rootMatches (resolvedCandidateOf env fs c v) (vaultRealOf env fs v) = true) :
    getPathAccessType env fs c ctx exp v = PathAccessType.vault := by
  simp [getPathAccessType, hc, hv]

/-- Core of claim C1: for a nonempty candidate, the classifier answers `vault`
exactly when the resolved candidate is the resolved vault root or a
separator-bounded descendant of it. -/
theorem vault_iff_core (env : JsEnv) (fs : FS) (c : String)
    (ctx exp : Option (List String)) (v : String) (hc : c ≠ "") :
    getPathAccessType env fs c ctx exp v = PathAccessType.vault ↔
      rootMatches (resolvedCandidateOf env fs c v) (vaultRealOf env fs v) = true := by
  constructor
  · intro h
    by_cases hv : rootMatches (resolvedCandidateOf env fs c v) (vaultRealOf env fs v) = true
    · exact hv
    · exfalso
      have hv' : rootMatches (resolvedCandidateOf env fs c v) (vaultRealOf env fs v) = false :=
        Bool.eq_false_iff.mpr hv
      rw [getPathAccessType_eq_select env fs c ctx exp v hc hv'] at h
      rcases hsel : selectBest (resolvedCandidateOf env fs c v) (mergedRoots env fs ctx exp)
          Option.none with _ | best
      · rw [hsel] at h
        exact PathAccessType.noConfusion h
      · rw [hsel] at h
        exact flagsClass_ne_vault best.2 h
  · exact getPathAccessType_vault_of env fs c ctx exp v hc

/-! ## Association-list map lemmas and the merged root map -/

theorem mapSet_cons_self (k : String) (v v0 : RootFlags) (tl : List (String × RootFlags)) :
    mapSet ((k, v0) :: tl) k v = (k, v) :: tl := by
  simp [mapSet]

theorem mapSet_cons_ne {k0 k : String} (h : k0 ≠ k) (v v0 : RootFlags)
    (tl : List (String × RootFlags)) :
    mapSet ((k0, v0) :: tl) k v = (k0, v0) :: mapSet tl k v := by
  simp [mapSet, h]

theorem mapGet_cons_self (k : String) (v0 : RootFlags) (tl : List (String × RootFlags)) :
    mapGet ((k, v0) :: tl) k = some v0 := by
  simp [mapGet]

theorem mapGet_cons_ne {k0 k : String} (h : k0 ≠ k) (v0 : RootFlags)
    (tl : List (String × RootFlags)) :
    mapGet ((k0, v0) :: tl) k = mapGet tl k := by
  simp [mapGet, h]

theorem mapGet_mapSet_self (m : List (String × RootFlags)) (k : String) (v : RootFlags) :
    mapGet (mapSet m k v) k = some v := by
  induction m with
  | nil => simp [mapSet, mapGet]
  | cons hd tl ih =>
    obtain ⟨k', v'⟩ := hd
    by_cases h : k' = k
    · subst h
      rw [mapSet_cons_self, mapGet_cons_self]
    · rw [mapSet_cons_ne h, mapGet_cons_ne h, ih]

theorem mapGet_mapSet_ne (m : List (String × RootFlags)) (k k' : String) (v : RootFlags)
    (h : k ≠ k') : mapGet (mapSet m k v) k' = mapGet m k' := by
  induction m with
  | nil => simp [mapSet, mapGet, h]
  | cons hd tl ih =>
    obtain ⟨k0, v0⟩ := hd
    by_cases h0 : k0 = k
    · subst h0
      rw [mapSet_cons_self, mapGet_cons_ne h, mapGet_cons_ne h]
    · rw [mapSet_cons_ne h0]
      by_cases h1 : k0 = k'
      · subst h1
        rw [mapGet_cons_self, mapGet_cons_self]
      · rw [mapGet_cons_ne h1, mapGet_cons_ne h1, ih]

theorem mem_of_mapGet {m : List (String × RootFlags)} {k : String} {f : RootFlags}
    (h : mapGet m k = some f) : (k, f) ∈ m := by
  induction m with
  | nil => exact absurd h (by simp [mapGet])
  | cons hd tl ih =>
    obtain ⟨k0, v0⟩ := hd
    by_cases h0 : k0 = k
    · subst h0
      rw [mapGet, if_pos rfl] at h
      cases h
      exact List.mem_cons_self _ _
    · rw [mapGet, if_neg h0] at h
      exact List.mem_cons_of_mem _ (ih h)

theorem mem_keys_mapSet {m : List (String × RootFlags)} {k k' : String} {v : RootFlags} :
    k' ∈ (mapSet m k v).map Prod.fst ↔ k' = k ∨ k' ∈ m.map Prod.fst := by
  induction m with
  | nil => simp [mapSet]
  | cons hd tl ih =>
    obtain ⟨k0, v0⟩ := hd
    by_cases h0 : k0 = k
    · subst h0
      rw [mapSet_cons_self]
      simp only [List.map_cons, List.mem_cons]
      tauto
    · rw [mapSet_cons_ne h0]
      simp only [List.map_cons, List.mem_cons, ih]
      tauto

theorem mapSet_nodup {m : List (String × RootFlags)} (h : (m.map Prod.fst).Nodup)
    (k : String) (v : RootFlags) : ((mapSet m k v).map Prod.fst).Nodup := by
  induction m with
  | nil => simp [mapSet]
  | cons hd tl ih =>
    obtain ⟨k0, v0⟩ := hd
    rw [List.map_cons, List.nodup_cons] at h
    by_cases h0 : k0 = k
    · subst h0
      rw [mapSet_cons_self]
      rw [List.map_cons, List.nodup_cons]
      exact h
    · rw [mapSet_cons_ne h0]
      rw [List.map_cons, List.nodup_cons]
      refine ⟨?_, ih h.2⟩
      intro hmem
      rcases mem_keys_mapSet.mp hmem with h' | h'
      · exact h0 h'
      · exact h.1 h'

theorem mapGet_of_mem {m : List (String × RootFlags)} {k : String} {f : RootFlags}
    (hnd : (m.map Prod.fst).Nodup) (hmem : (k, f) ∈ m) : mapGet m k = some f := by
  induction m with
  | nil => exact absurd hmem (by simp)
  | cons hd tl ih =>
    obtain ⟨k0, v0⟩ := hd
    rw [List.map_cons, List.nodup_cons] at hnd
    rcases List.mem_cons.mp hmem with h' | h'
    · rw [Prod.mk.injEq] at h'
      rw [← h'.1, mapGet_cons_self, h'.2]
    · have hne : k0 ≠ k := by
        intro hk
        apply hnd.1
        rw [hk]
        exact List.mem_map.mpr ⟨(k, f), h', rfl⟩
      rw [mapGet_cons_ne hne]
      exact ih hnd.2 h'

theorem flagLe_refl (f : RootFlags) : flagLe f f :=
  ⟨id, id⟩

theorem flagLe_trans {f0 f1 f2 : RootFlags} (h01 : flagLe f0 f1) (h12 : flagLe f1 f2) :
    flagLe f0 f2 :=
  ⟨fun h => h12.1 (h01.1 h), fun h => h12.2 (h01.2 h)⟩

theorem addRoot_nodup (env : JsEnv) (fs : FS) {m : List (String × RootFlags)}
    (h : (m.map Prod.fst).Nodup) (e : String) (b : Bool) :
    ((addRoot env fs m e b).map Prod.fst).Nodup := by
  unfold addRoot
  by_cases ht : jsTrim e = ""
  · simpa [ht] using h
  · simp only [ht, if_neg, ite_false]
    exact mapSet_nodup h _ _

/-- Adding one root keeps every existing entry, only ever raising flags. -/
theorem addRoot_mono (env : JsEnv) (fs : FS) (m : List (String × RootFlags)) (e : String)
    (b : Bool) (k : String) (f : RootFlags) (h : mapGet m k = some f) :
    ∃ f', mapGet (addRoot env fs m e b) k = some f' ∧ flagLe f f' := by
  unfold addRoot
  by_cases ht : jsTrim e = ""
  · simp only [ht, ite_true]
    exact ⟨f, h, flagLe_refl f⟩
  · simp only [ht, ite_false]
    by_cases hk : resolveRootEntry env fs e = k
    · rw [hk, h]
      rw [← hk, mapGet_mapSet_self]
      refine ⟨_, rfl, ?_⟩
      cases b <;> exact ⟨fun hh => by simp [hh], fun hh => by simp [hh]⟩
    · rw [mapGet_mapSet_ne _ _ _ _ hk]
      exact ⟨f, h, flagLe_refl f⟩

/-- Adding one root creates/updates the entry at its resolved path, setting
its own kind flag and keeping all flags already present there. -/
theorem addRoot_reach (env : JsEnv) (fs : FS) (m : List (String × RootFlags)) (e : String)
    (b : Bool) (ht : jsTrim e ≠ "") :
    ∃ f, mapGet (addRoot env fs m e b) (resolveRootEntry env fs e) = some f ∧
      (b = true → f.exportFlag = true) ∧ (b = false → f.context = true) ∧
      (∀ f0, mapGet m (resolveRootEntry env fs e) = some f0 → flagLe f0 f) := by
  unfold addRoot
  simp only [ht, ite_false]
  rw [mapGet_mapSet_self]
  refine ⟨_, rfl, ?_, ?_, ?_⟩
  · intro hb
    subst hb
    simp
  · intro hb
    subst hb
    simp
  · intro f0 h0
    rw [h0]
    cases b <;> exact ⟨fun hh => by simp [hh], fun hh => by simp [hh]⟩

theorem foldAdd_nodup (env : JsEnv) (fs : FS) (b : Bool) (l : List String) :
    ∀ m : List (String × RootFlags), (m.map Prod.fst).Nodup →
      (((l.foldl (fun m p => addRoot env fs m p b) m)).map Prod.fst).Nodup := by
  induction l with
  | nil => intro m h; exact h
  | cons hd tl ih =>
    intro m h
    exact ih _ (addRoot_nodup env fs h hd b)

theorem foldAdd_mono (env : JsEnv) (fs : FS) (b : Bool) (l : List String) :
    ∀ (m : List (String × RootFlags)) (k : String) (f : RootFlags), mapGet m k = some f →
      ∃ f', mapGet (l.foldl (fun m p => addRoot env fs m p b) m) k = some f' ∧ flagLe f f' := by
  induction l with
  | nil => intro m k f h; exact ⟨f, h, flagLe_refl f⟩
  | cons hd tl ih =>
    intro m k f h
    obtain ⟨f1, h1, hle1⟩ := addRoot_mono env fs m hd b k f h
    obtain ⟨f2, h2, hle2⟩ := ih _ k f1 h1
    exact ⟨f2, h2, flagLe_trans hle1 hle2⟩

theorem foldAdd_reach (env : JsEnv) (fs : FS) (b : Bool) (l : List String) :
    ∀ (m : List (String × RootFlags)) (e : String), e ∈ l → jsTrim e ≠ "" →
      ∃ f, mapGet (l.foldl (fun m p => addRoot env fs m p b) m)
          (resolveRootEntry env fs e) = some f ∧
        (b = true → f.exportFlag = true) ∧ (b = false → f.context = true) ∧
        (∀ f0, mapGet m (resolveRootEntry env fs e) = some f0 → flagLe f0 f) := by
  induction l with
  | nil => intro m e hmem; exact absurd hmem (by simp)
  | cons hd tl ih =>
    intro m e hmem ht
    rcases List.mem_cons.mp hmem with h' | h'
    · subst h'
      obtain ⟨f1, h1, hbe1, hbc1, hkeep1⟩ := addRoot_reach env fs m e b ht
      obtain ⟨f2, h2, hle2⟩ := foldAdd_mono env fs b tl _ _ f1 h1
      refine ⟨f2, h2, fun hb => hle2.2 (hbe1 hb), fun hb => hle2.1 (hbc1 hb), ?_⟩
      intro f0 h0
      exact flagLe_trans (hkeep1 f0 h0) hle2
    · obtain ⟨f2, h2, hbe2, hbc2, hkeep2⟩ := ih (addRoot env fs m hd b) e h' ht
      refine ⟨f2, h2, hbe2, hbc2, ?_⟩
      intro f0 h0
      obtain ⟨f1, h1, hle1⟩ := addRoot_mono env fs m hd b _ f0 h0
      exact flagLe_trans hle1 (hkeep2 f1 h1)

theorem mergedRoots_nodup (env : JsEnv) (fs : FS) (ctx exp : Option (List String)) :
    ((mergedRoots env fs ctx exp).map Prod.fst).Nodup := by
  unfold mergedRoots
  exact foldAdd_nodup env fs true _ _ (foldAdd_nodup env fs false _ [] (by simp))

/-- A root spec present (with nonempty trim) in the context list and one in
the export list that resolve to the same canonical path `r` produce a single
merged entry at `r` carrying both flags. -/
theorem mergedRoots_both (env : JsEnv) (fs : FS) (ctxL expL : List String)
    (s1 s2 r : String) (h1 : s1 ∈ ctxL) (h2 : s2 ∈ expL)
    (ht1 : jsTrim s1 ≠ "") (ht2 : jsTrim s2 ≠ "")
    (hr1 : resolveRootEntry env fs s1 = r) (hr2 : resolveRootEntry env fs s2 = r) :
    ∃ f, mapGet (mergedRoots env fs (some ctxL) (some expL)) r = some f ∧
      f.context = true ∧ f.exportFlag = true := by
  obtain ⟨f1, hg1, _, hc1, _⟩ := foldAdd_reach env fs false ctxL [] s1 h1 ht1
  rw [hr1] at hg1
  obtain ⟨f2, hg2, he2, _, hkeep2⟩ :=
    foldAdd_reach env fs true expL
      (ctxL.foldl (fun m p => addRoot env fs m p false) []) s2 h2 ht2
  rw [hr2] at hg2
  have hle := hkeep2 f1 (by rw [hr2]; exact hg1)
  exact ⟨f2, hg2, hle.1 (hc1 rfl), he2 rfl⟩

/-! ## Claim C1 -/

/-- Claim C1, amended with a nonempty-candidate proviso: for every nonempty
candidate path, every context/export root configuration and every vault root,
`getPathAccessType` returns `vault` iff the fully resolved candidate equals
the resolved vault root or is a separator-bounded strict descendant of it;
the answer `vault` is independent of the auxiliary root lists; and the bare
string-prefix case `classify("/vault2/file", [], [], "/vault")` is not
`vault`. -/
theorem getPathAccessType_vault_iff :
    (∀ (env : JsEnv) (fs : FS) (c : String) (ctx exp : Option (List String)) (v : String),
        c ≠ "" →
        (getPathAccessType env fs c ctx exp v = PathAccessType.vault ↔
          rootMatches (resolvedCandidateOf env fs c v) (vaultRealOf env fs v) = true)) ∧
    (∀ (env : JsEnv) (fs : FS) (c : String) (ctx exp ctx2 exp2 : Option (List String))
        (v : String),
        (getPathAccessType env fs c ctx exp v = PathAccessType.vault ↔
          getPathAccessType env fs c ctx2 exp2 v = PathAccessType.vault)) ∧
    getPathAccessType demoEnv fsDemo "/vault2/file" (some []) (some []) "/vault" ≠
      PathAccessType.vault := by
  refine ⟨fun env fs c ctx exp v hc => vault_iff_core env fs c ctx exp v hc, ?_, by decide⟩
  intro env fs c ctx exp ctx2 exp2 v
  by_cases hc : c = ""
  · subst hc
    simp [getPathAccessType]
  · rw [vault_iff_core env fs c ctx exp v hc, vault_iff_core env fs c ctx2 exp2 v hc]

/-- Claim C1, counterexample to the unrestricted claim: for the empty
candidate the classifier answers `none` although the empty string resolves
(relative to the vault root) to the vault root itself, so the stated iff
fails there. -/
theorem getPathAccessType_vault_iff_cex :
    ¬ (getPathAccessType demoEnv fsDemo "" (some []) (some []) "/vault" = PathAccessType.vault ↔
        rootMatches (resolvedCandidateOf demoEnv fsDemo "" "/vault")
          (vaultRealOf demoEnv fsDemo "/vault") = true) := by
  decide

/-- Claim C1, witness: the amended iff applied at a concrete in-vault
candidate. -/
theorem getPathAccessType_vault_iff_witness :
    getPathAccessType demoEnv fsDemo "/vault/notes/a.md" (some ["/docs"]) (some ["/out"])
      "/vault" = PathAccessType.vault :=
  (getPathAccessType_vault_iff.1 demoEnv fsDemo "/vault/notes/a.md" (some ["/docs"])
    (some ["/out"]) "/vault" (by decide)).mpr (by decide)

/-! ## Claim C2 -/

/-- Claim C2, amended with the provisos the rest of the algorithm imposes
(nonempty candidate, candidate not inside the vault): whenever some merged
auxiliary root matches the resolved candidate, the classifier's answer is the
class of a matching merged root of maximal resolved-path length; and
concretely `classify("/a/b/c", ["/a"], ["/a/b"], "/vault") = export`. -/
theorem getPathAccessType_longest_root :
    (∀ (env : JsEnv) (fs : FS) (c : String) (ctx exp : Option (List String)) (v : String),
        c ≠ "" →
        rootMatches (resolvedCandidateOf env fs c v) (vaultRealOf env fs v) = false →
        ∀ rf0 ∈ mergedRoots env fs ctx exp,
          rootMatches (resolvedCandidateOf env fs c v) rf0.1 = true →
          ∃ rf ∈ mergedRoots env fs ctx exp,
            rootMatches (resolvedCandidateOf env fs c v) rf.1 = true ∧
            (∀ rf' ∈ mergedRoots env fs ctx exp,
              rootMatches (resolvedCandidateOf env fs c v) rf'.1 = true →
                rf'.1.length ≤ rf.1.length) ∧
            getPathAccessType env fs c ctx exp v = flagsClass rf.2) ∧
    getPathAccessType demoEnv fsDemo "/a/b/c" (some ["/a"]) (some ["/a/b"]) "/vault" =
      PathAccessType.exportAccess := by
  constructor
  · intro env fs c ctx exp v hc hv rf0 h0 hm0
    have hspec := selectBest_spec (resolvedCandidateOf env fs c v)
      (mergedRoots env fs ctx exp) Option.none (by intro rf h; cases h)
    rcases hsel : selectBest (resolvedCandidateOf env fs c v) (mergedRoots env fs ctx exp)
        Option.none with _ | rf
    · exfalso
      have h2 := (hspec.1 hsel).2 rf0 h0
      rw [hm0] at h2
      exact Bool.noConfusion h2
    · obtain ⟨hmatch, hsrc, hmax, _⟩ := hspec.2 rf hsel
      have hmem : rf ∈ mergedRoots env fs ctx exp := by
        rcases hsrc with h' | h'
        · exact absurd h' (by simp)
        · exact h'
      refine ⟨rf, hmem, hmatch, hmax, ?_⟩
      rw [getPathAccessType_eq_select env fs c ctx exp v hc hv, hsel]
  · decide

/-- Claim C2, counterexample to the unrestricted claim: with vault `/a`, both
merged auxiliary roots `/a` (context) and `/a/b` (export) match the candidate
`/a/b/c`, yet the classifier answers `vault`, not the class of the longest
matching root (`export`), because the vault check runs first. -/
theorem getPathAccessType_longest_root_cex :
    getPathAccessType demoEnv fsDemo "/a/b/c" (some ["/a"]) (some ["/a/b"]) "/a" =
        PathAccessType.vault ∧
    (∀ rf ∈ mergedRoots demoEnv fsDemo (some ["/a"]) (some ["/a/b"]),
      rootMatches (resolvedCandidateOf demoEnv fsDemo "/a/b/c" "/a") rf.1 = true) ∧
    getPathAccessType demoEnv fsDemo "/a/b/c" (some ["/a"]) (some ["/a/b"]) "/a" ≠
      flagsClass ⟨false, true⟩ := by
  decide

/-! ## Claim C3 -/

/-- Claim C3, amended: a root listed (up to canonicalization) in both the
context and the export list forms a single merged entry carrying both flags,
and the classifier answers `readwrite` for the root and its separator-bounded
descendants, provided the candidate is nonempty, is not inside the vault, and
no longer merged root also matches it (a more specific root, or the vault,
would win otherwise). -/
theorem getPathAccessType_readwrite_merge :
    ∀ (env : JsEnv) (fs : FS) (c : String) (ctxL expL : List String) (v s1 s2 r : String),
      s1 ∈ ctxL → s2 ∈ expL → jsTrim s1 ≠ "" → jsTrim s2 ≠ "" →
      resolveRootEntry env fs s1 = r → resolveRootEntry env fs s2 = r →
      c ≠ "" →
      rootMatches (resolvedCandidateOf env fs c v) (vaultRealOf env fs v) = false →
      rootMatches (resolvedCandidateOf env fs c v) r = true →
      (∀ rf ∈ mergedRoots env fs (some ctxL) (some expL),
        rootMatches (resolvedCandidateOf env fs c v) rf.1 = true → rf.1.length ≤ r.length) →
      (∃ f, mapGet (mergedRoots env fs (some ctxL) (some expL)) r = some f ∧
          f.context = true ∧ f.exportFlag = true) ∧
        getPathAccessType env fs c (some ctxL) (some expL) v = PathAccessType.readwrite := by
  intro env fs c ctxL expL v s1 s2 r h1 h2 ht1 ht2 hr1 hr2 hc hv hmr hmax
  obtain ⟨f, hget, hfc, hfe⟩ := mergedRoots_both env fs ctxL expL s1 s2 r h1 h2 ht1 ht2 hr1 hr2
  refine ⟨⟨f, hget, hfc, hfe⟩, ?_⟩
  have hmem : (r, f) ∈ mergedRoots env fs (some ctxL) (some expL) := mem_of_mapGet hget
  have hspec := selectBest_spec (resolvedCandidateOf env fs c v)
    (mergedRoots env fs (some ctxL) (some expL)) Option.none (by intro rf h; cases h)
  rcases hsel : selectBest (resolvedCandidateOf env fs c v)
      (mergedRoots env fs (some ctxL) (some expL)) Option.none with _ | rf
  · exfalso
    have h2 := (hspec.1 hsel).2 (r, f) hmem
    rw [hmr] at h2
    exact Bool.noConfusion h2
  · obtain ⟨rk, rv⟩ := rf
    obtain ⟨hmatch, hsrc, hmaxsel, _⟩ := hspec.2 (rk, rv) hsel
    have hmemrf : (rk, rv) ∈ mergedRoots env fs (some ctxL) (some expL) := by
      rcases hsrc with h' | h'
      · exact absurd h' (by simp)
      · exact h'
    have hlen1 : r.length ≤ rk.length := hmaxsel (r, f) hmem hmr
    have hlen2 : rk.length ≤ r.length := hmax (rk, rv) hmemrf hmatch
    have heqr : rk = r :=
      rootMatches_eq_of_length hmatch hmr (Nat.le_antisymm hlen2 hlen1)
    have hgetrf : mapGet (mergedRoots env fs (some ctxL) (some expL)) rk = some rv :=
      mapGet_of_mem (mergedRoots_nodup env fs (some ctxL) (some expL)) hmemrf
    rw [heqr, hget] at hgetrf
    have hfv : rv = f := by
      cases hgetrf
      rfl
    rw [getPathAccessType_eq_select env fs c (some ctxL) (some expL) v hc hv, hsel]
    simp [hfv, flagsClass, hfc, hfe]

/-- Claim C3, counterexample to the unrestricted claim: `/a` is listed in both
the context and the export list and matches the candidate `/a/b/c`, but the
longer export-only root `/a/b` also matches, so the classifier answers
`export`, not `readwrite`. -/
theorem getPathAccessType_readwrite_merge_cex :
    ("/a" ∈ (["/a"] : List String)) ∧ ("/a" ∈ (["/a", "/a/b"] : List String)) ∧
    rootMatches (resolvedCandidateOf demoEnv fsDemo "/a/b/c" "/vault")
      (resolveRootEntry demoEnv fsDemo "/a") = true ∧
    getPathAccessType demoEnv fsDemo "/a/b/c" (some ["/a"]) (some ["/a", "/a/b"]) "/vault" ≠
      PathAccessType.readwrite := by
  decide

/-- Claim C3, witness: the amended merge property applied at the concrete
duplicated root `/a`. -/
theorem getPathAccessType_readwrite_merge_witness :
    (∃ f, mapGet (mergedRoots demoEnv fsDemo (some ["/a"]) (some ["/a"])) "/a" = some f ∧
        f.context = true ∧ f.exportFlag = true) ∧
      getPathAccessType demoEnv fsDemo "/a/b/c" (some ["/a"]) (some ["/a"]) "/vault" =
        PathAccessType.readwrite :=
  getPathAccessType_readwrite_merge demoEnv fsDemo "/a/b/c" ["/a"] ["/a"] "/vault" "/a" "/a"
    "/a" (by decide) (by decide) (by decide) (by decide) (by decide) (by decide) (by decide)
    (by decide) (by decide) (by decide)

/-- Claim C2, witness: the amended selection property applied at the concrete
nested-roots configuration. -/
theorem getPathAccessType_longest_root_witness :
    ∃ rf ∈ mergedRoots demoEnv fsDemo (some ["/a"]) (some ["/a/b"]),
      rootMatches (resolvedCandidateOf demoEnv fsDemo "/a/b/c" "/vault") rf.1 = true ∧
      (∀ rf' ∈ mergedRoots demoEnv fsDemo (some ["/a"]) (some ["/a/b"]),
        rootMatches (resolvedCandidateOf demoEnv fsDemo "/a/b/c" "/vault") rf'.1 = true →
          rf'.1.length ≤ rf.1.length) ∧
      getPathAccessType demoEnv fsDemo "/a/b/c" (some ["/a"]) (some ["/a/b"]) "/vault" =
        flagsClass rf.2 :=
  getPathAccessType_longest_root.1 demoEnv fsDemo "/a/b/c" (some ["/a"]) (some ["/a/b"])
    "/vault" (by decide) (by decide) ("/a", ⟨true, false⟩) (by decide) (by decide)

/-! ## Unfolding the upward walk -/

theorem walkUp_succ (fs : FS) (abs : String) (fuel : Nat) (current : String)
    (suffix : List String) :
    walkUp fs abs (fuel + 1) current suffix =
      match (if fs.fexists current then fs.realpath current else Option.none) with
      | some resolvedExisting =>
        if suffix.isEmpty then resolvedExisting
        else posixJoin (resolvedExisting :: suffix.reverse)
      | Option.none =>
        let parent := posixDirname current
        if parent = current then abs
        else walkUp fs abs fuel parent (suffix ++ [posixBasename current]) := rfl

/-! ## Trimming lemmas -/

theorem dropWhile_cons_false {p : Char → Bool} {x : Char} {t : List Char} (h : p x = false) :
    (x :: t).dropWhile p = x :: t := by
  simp [List.dropWhile, h]

theorem dropWhile_head_false (p : Char → Bool) (l : List Char) :
    l.dropWhile p = [] ∨ ∃ x t, l.dropWhile p = x :: t ∧ p x = false := by
  induction l with
  | nil => exact Or.inl rfl
  | cons a t ih =>
    by_cases h : p a = true
    · simpa [List.dropWhile, h] using ih
    · have h' : p a = false := Bool.eq_false_iff.mpr h
      exact Or.inr ⟨a, t, dropWhile_cons_false h', h'⟩

theorem dropWhile_dropWhile (p : Char → Bool) (l : List Char) :
    (l.dropWhile p).dropWhile p = l.dropWhile p := by
  rcases dropWhile_head_false p l with h | ⟨x, t, h, hx⟩
  · rw [h]
    rfl
  · rw [h, dropWhile_cons_false hx]

/-- JS `trim` is idempotent. -/
theorem jsTrim_jsTrim (s : String) : jsTrim (jsTrim s) = jsTrim s := by
  unfold jsTrim
  apply string_eq_of_data
  show (((((s.data.dropWhile jsWhitespaceChar).reverse.dropWhile
      jsWhitespaceChar).reverse).dropWhile jsWhitespaceChar).reverse.dropWhile
      jsWhitespaceChar).reverse = _
  set A := s.data.dropWhile jsWhitespaceChar with hA
  set B := A.reverse.dropWhile jsWhitespaceChar with hB
  have hsplit : A.reverse.takeWhile jsWhitespaceChar ++ B = A.reverse :=
    List.takeWhile_append_dropWhile jsWhitespaceChar A.reverse
  have hAeq : A = B.reverse ++ (A.reverse.takeWhile jsWhitespaceChar).reverse := by
    have := congrArg List.reverse hsplit
    simpa using this.symm
  have hstep1 : B.reverse.dropWhile jsWhitespaceChar = B.reverse := by
    cases hBrev : B.reverse with
    | nil => rfl
    | cons x t =>
      have hxA : ∃ t', A = x :: t' := by
        rw [hAeq, hBrev]
        exact ⟨t ++ (A.reverse.takeWhile jsWhitespaceChar).reverse, rfl⟩
      obtain ⟨t', ht'⟩ := hxA
      rcases dropWhile_head_false jsWhitespaceChar s.data with h | ⟨y, u, h, hy⟩
      · rw [← hA] at h
        rw [h] at ht'
        exact absurd ht' (by simp)
      · rw [← hA] at h
        rw [h] at ht'
        have hxy : x = y := by
          have := ht'.symm
          rw [List.cons.injEq] at this
          exact this.1
        exact dropWhile_cons_false (hxy ▸ hy)
  rw [hstep1]
  have hstep2 : B.reverse.reverse.dropWhile jsWhitespaceChar = B := by
    rw [List.reverse_reverse]
    rw [hB]
    exact dropWhile_dropWhile jsWhitespaceChar A.reverse
  rw [hstep2]

theorem addRoot_skip (env : JsEnv) (fs : FS) (m : List (String × RootFlags)) (e : String)
    (b : Bool) (ht : jsTrim e = "") : addRoot env fs m e b = m := by
  unfold addRoot
  simp [ht]

theorem addRoot_trim (env : JsEnv) (fs : FS) (m : List (String × RootFlags)) (e : String)
    (b : Bool) : addRoot env fs m (jsTrim e) b = addRoot env fs m e b := by
  unfold addRoot
  unfold resolveRootEntry
  rw [jsTrim_jsTrim]

theorem foldAdd_clean (env : JsEnv) (fs : FS) (b : Bool) (l : List String) :
    ∀ m, (cleanList l).foldl (fun m p => addRoot env fs m p b) m =
      l.foldl (fun m p => addRoot env fs m p b) m := by
  induction l with
  | nil => intro m; rfl
  | cons hd tl ih =>
    intro m
    by_cases ht : jsTrim hd = ""
    · rw [List.foldl_cons, addRoot_skip env fs m hd b ht]
      have hclean : cleanList (hd :: tl) = cleanList tl := by
        simp [cleanList, List.filter_cons, ht]
      rw [hclean]
      exact ih m
    · have hclean : cleanList (hd :: tl) = jsTrim hd :: cleanList tl := by
        simp [cleanList, List.filter_cons, ht]
      rw [hclean, List.foldl_cons, List.foldl_cons, addRoot_trim]
      exact ih _

theorem mergedRoots_clean (env : JsEnv) (fs : FS) (ctxL expL : List String) :
    mergedRoots env fs (some (cleanList ctxL)) (some (cleanList expL)) =
      mergedRoots env fs (some ctxL) (some expL) := by
  unfold mergedRoots
  simp only [Option.getD_some]
  rw [foldAdd_clean env fs false ctxL, foldAdd_clean env fs true expL]

/-! ## Claim C9 -/

/-- Claim C9: `getPathAccessType` trims every context/export list entry and
silently skips entries that trim to the empty string — the merged root map and
the final classification are exactly those of the cleaned-up lists, so such
entries never create a merged root and never change the answer. -/
theorem getPathAccessType_trims_entries :
    ∀ (env : JsEnv) (fs : FS) (c : String) (ctxL expL : List String) (v : String),
      mergedRoots env fs (some ctxL) (some expL) =
        mergedRoots env fs (some (cleanList ctxL)) (some (cleanList expL)) ∧
      getPathAccessType env fs c (some ctxL) (some expL) v =
        getPathAccessType env fs c (some (cleanList ctxL)) (some (cleanList expL)) v := by
  intro env fs c ctxL expL v
  refine ⟨(mergedRoots_clean env fs ctxL expL).symm, ?_⟩
  unfold getPathAccessType
  rw [mergedRoots_clean env fs ctxL expL]

/-! ## Key-set lemmas for the merged root map, and claim C5 -/

theorem exists_key_mapSet (P : String → Prop) (m : List (String × RootFlags)) (k : String)
    (v : RootFlags) :
    (∃ rf ∈ mapSet m k v, P rf.1) ↔ P k ∨ ∃ rf ∈ m, P rf.1 := by
  induction m with
  | nil => simp [mapSet]
  | cons hd tl ih =>
    obtain ⟨k0, v0⟩ := hd
    by_cases h0 : k0 = k
    · subst h0
      rw [mapSet_cons_self]
      simp only [List.mem_cons]
      constructor
      · rintro ⟨rf, hrf | hrf, hP⟩
        · exact Or.inl (by rw [hrf] at hP; exact hP)
        · exact Or.inr ⟨rf, Or.inr hrf, hP⟩
      · rintro (hP | ⟨rf, hrf | hrf, hP⟩)
        · exact ⟨(k0, v), Or.inl rfl, hP⟩
        · exact ⟨(k0, v), Or.inl rfl, by rw [hrf] at hP; exact hP⟩
        · exact ⟨rf, Or.inr hrf, hP⟩
    · rw [mapSet_cons_ne h0]
      simp only [List.mem_cons]
      constructor
      · rintro ⟨rf, hrf | hrf, hP⟩
        · exact Or.inr ⟨rf, Or.inl hrf, hP⟩
        · rcases (ih.mp ⟨rf, hrf, hP⟩) with h | ⟨rf', hrf', hP'⟩
          · exact Or.inl h
          · exact Or.inr ⟨rf', Or.inr hrf', hP'⟩
      · rintro (hP | ⟨rf, hrf | hrf, hP⟩)
        · obtain ⟨rf', hrf', hP'⟩ := ih.mpr (Or.inl hP)
          exact ⟨rf', Or.inr hrf', hP'⟩
        · exact ⟨rf, Or.inl hrf, hP⟩
        · obtain ⟨rf', hrf', hP'⟩ := ih.mpr (Or.inr ⟨rf, hrf, hP⟩)
          exact ⟨rf', Or.inr hrf', hP'⟩

theorem exists_key_addRoot (P : String → Prop) (env : JsEnv) (fs : FS)
    (m : List (String × RootFlags)) (e : String) (b : Bool) :
    (∃ rf ∈ addRoot env fs m e b, P rf.1) ↔
      (jsTrim e ≠ "" ∧ P (resolveRootEntry env fs e)) ∨ ∃ rf ∈ m, P rf.1 := by
  by_cases ht : jsTrim e = ""
  · rw [addRoot_skip env fs m e b ht]
    simp [ht]
  · unfold addRoot
    simp only [ht, ite_false]
    rw [exists_key_mapSet]
    simp [ht]

theorem exists_key_foldAdd (P : String → Prop) (env : JsEnv) (fs : FS) (b : Bool)
    (l : List String) :
    ∀ m, (∃ rf ∈ l.foldl (fun m p => addRoot env fs m p b) m, P rf.1) ↔
      (∃ rf ∈ m, P rf.1) ∨ ∃ e ∈ l, jsTrim e ≠ "" ∧ P (resolveRootEntry env fs e) := by
  induction l with
  | nil => intro m; simp
  | cons hd tl ih =>
    intro m
    rw [List.foldl_cons, ih]
    rw [exists_key_addRoot]
    simp only [List.mem_cons]
    constructor
    · rintro ((⟨hne, hP⟩ | h) | ⟨e, he, hne, hP⟩)
      · exact Or.inr ⟨hd, Or.inl rfl, hne, hP⟩
      · exact Or.inl h
      · exact Or.inr ⟨e, Or.inr he, hne, hP⟩
    · rintro (h | ⟨e, he | he, hne, hP⟩)
      · exact Or.inl (Or.inr h)
      · exact Or.inl (Or.inl ⟨by rw [← he]; exact hne, by rw [← he]; exact hP⟩)
      · exact Or.inr ⟨e, he, hne, hP⟩

/-- Claim C5, amended with the entry-handling proviso: for lists whose entries
are already trimmed and nonempty, each narrow predicate answers `true` exactly
when some merged root built from its list (by the classifier's own rule)
matches the resolved candidate.  (Without that proviso the predicates and the
classifier disagree: the predicates neither trim nor skip entries.) -/
theorem isPathInAllowedContextPaths_eq_any (env : JsEnv) (fs : FS) (c : String)
    (l : List String) (v : String) :
    isPathInAllowedContextPaths env fs c l v =
      l.any (fun e => rootMatches (resolvedCandidateOf env fs c v)
        (resolveRootEntryRaw env fs e)) := by
  cases l <;> rfl

theorem isPathInAllowedExportPaths_eq_any (env : JsEnv) (fs : FS) (c : String)
    (l : List String) (v : String) :
    isPathInAllowedExportPaths env fs c l v =
      l.any (fun e => rootMatches (resolvedCandidateOf env fs c v)
        (resolveRootEntryRaw env fs e)) := by
  cases l <;> rfl

theorem mergedRoots_ctx_eq (env : JsEnv) (fs : FS) (l : List String) :
    mergedRoots env fs (some l) Option.none =
      l.foldl (fun m p => addRoot env fs m p false) [] := rfl

theorem mergedRoots_exp_eq (env : JsEnv) (fs : FS) (l : List String) :
    mergedRoots env fs Option.none (some l) =
      l.foldl (fun m p => addRoot env fs m p true) [] := rfl

theorem predicates_match_classifier_rule :
    ∀ (env : JsEnv) (fs : FS) (c : String) (l : List String) (v : String),
      (∀ e ∈ l, jsTrim e = e ∧ e ≠ "") →
      (isPathInAllowedContextPaths env fs c l v = true ↔
        ∃ rf ∈ mergedRoots env fs (some l) Option.none,
          rootMatches (resolvedCandidateOf env fs c v) rf.1 = true) ∧
      (isPathInAllowedExportPaths env fs c l v = true ↔
        ∃ rf ∈ mergedRoots env fs Option.none (some l),
          rootMatches (resolvedCandidateOf env fs c v) rf.1 = true) := by
  intro env fs c l v hl
  have hentry : ∀ e ∈ l, resolveRootEntry env fs e = resolveRootEntryRaw env fs e := by
    intro e he
    unfold resolveRootEntry
    rw [(hl e he).1]
  have hkey : ∀ b : Bool,
      (∃ rf ∈ l.foldl (fun m p => addRoot env fs m p b) [], rootMatches
        (resolvedCandidateOf env fs c v) rf.1 = true) ↔
      ∃ e ∈ l, rootMatches (resolvedCandidateOf env fs c v)
        (resolveRootEntryRaw env fs e) = true := by
    intro b
    rw [exists_key_foldAdd
      (fun k => rootMatches (resolvedCandidateOf env fs c v) k = true) env fs b l []]
    constructor
    · rintro (⟨rf, hrf, _⟩ | ⟨e, he, _, hP⟩)
      · exact absurd hrf (by simp)
      · exact ⟨e, he, by rw [← hentry e he]; exact hP⟩
    · rintro ⟨e, he, hP⟩
      refine Or.inr ⟨e, he, ?_, ?_⟩
      · rw [(hl e he).1]
        exact (hl e he).2
      · rw [hentry e he]
        exact hP
  constructor
  · rw [isPathInAllowedContextPaths_eq_any, mergedRoots_ctx_eq]
    simp only [List.any_eq_true]
    exact (hkey false).symm
  · rw [isPathInAllowedExportPaths_eq_any, mergedRoots_exp_eq]
    simp only [List.any_eq_true]
    exact (hkey true).symm

/-- Claim C5, counterexample to the unrestricted claim: with the list `[""]`
the export predicate accepts a candidate under the process cwd (the empty
entry resolves there), while the classifier's rule for the same list skips the
empty entry and builds no root at all. -/
theorem predicates_match_classifier_rule_cex :
    ¬ (isPathInAllowedExportPaths demoEnv fsDemo "/cwd/file" [""] "/vault" = true ↔
        ∃ rf ∈ mergedRoots demoEnv fsDemo Option.none (some [""]),
          rootMatches (resolvedCandidateOf demoEnv fsDemo "/cwd/file" "/vault") rf.1 = true) := by
  decide

/-- Claim C5, witness: the amended equivalence applied at a concrete trimmed
nonempty list. -/
theorem predicates_match_classifier_rule_witness :
    (isPathInAllowedContextPaths demoEnv fsDemo "/a/b/c" ["/a"] "/vault" = true ↔
      ∃ rf ∈ mergedRoots demoEnv fsDemo (some ["/a"]) Option.none,
        rootMatches (resolvedCandidateOf demoEnv fsDemo "/a/b/c" "/vault") rf.1 = true) ∧
    (isPathInAllowedExportPaths demoEnv fsDemo "/a/b/c" ["/a"] "/vault" = true ↔
      ∃ rf ∈ mergedRoots demoEnv fsDemo Option.none (some ["/a"]),
        rootMatches (resolvedCandidateOf demoEnv fsDemo "/a/b/c" "/vault") rf.1 = true) :=
  predicates_match_classifier_rule demoEnv fsDemo "/a/b/c" ["/a"] "/vault" (by decide)

/-! ## Claim C6 -/

/-- Claim C6, amended: every function of the subsystem is total (the model has
no failure path at all — errors degrade to values), and an empty candidate
degrades to `none` in the classifier; but the boolean predicates do not
special-case the empty candidate: they resolve it relative to the vault root,
so `isPathWithinVault` reports `true` for the empty candidate of an existing
vault. -/
theorem empty_candidate_degrades :
    (∀ (env : JsEnv) (fs : FS) (ctx exp : Option (List String)) (v : String),
      getPathAccessType env fs "" ctx exp v = PathAccessType.none) ∧
    isPathWithinVault demoEnv fsDemo "" "/vault" = true :=
  ⟨fun env fs ctx exp v => by simp [getPathAccessType], by decide⟩

/-- Claim C6, counterexample: the claim says a malformed or empty candidate
path degrades to `false` in the predicates, but `isPathWithinVault` resolves
the empty candidate to the vault root itself and answers `true`. -/
theorem empty_candidate_degrades_cex :
    ¬ isPathWithinVault demoEnv fsDemo "" "/vault" = false := by
  decide

/-! ## Claim C10 -/

/-- Claim C10: the narrow predicates do not skip empty list entries — an empty
entry is resolved through `resolveRealPath`, which sends `""` to the
(canonicalized) process cwd, so any candidate resolving to the cwd or a
separator-bounded descendant of it is reported as allowed; concretely, with
cwd `/cwd`, the list `[""]` admits `/cwd/file`. -/
theorem empty_entry_allows_cwd :
    (∀ (env : JsEnv) (fs : FS) (r : String),
      fs.realpath "" = Option.none →
      fs.fexists (posixResolve env.cwd [""]) = true →
      fs.realpath (posixResolve env.cwd [""]) = some r →
      resolveRealPath env fs "" = r) ∧
    (∀ (env : JsEnv) (fs : FS) (c : String) (l : List String) (v : String),
      "" ∈ l →
      rootMatches (resolvedCandidateOf env fs c v)
        (normalizePathForComparison (resolveRealPath env fs "")) = true →
      isPathInAllowedExportPaths env fs c l v = true ∧
        isPathInAllowedContextPaths env fs c l v = true) ∧
    resolveRealPath demoEnv fsDemo "" = "/cwd" ∧
    isPathInAllowedExportPaths demoEnv fsDemo "/cwd/file" [""] "/vault" = true := by
  refine ⟨?_, ?_, by decide, by decide⟩
  · intro env fs r h1 h2 h3
    unfold resolveRealPath
    rw [h1]
    show walkUp fs (posixResolve env.cwd [""]) ((posixResolve env.cwd [""]).length + 1)
      (posixResolve env.cwd [""]) [] = r
    rw [walkUp_succ, h2]
    simp only [ite_true]
    rw [h3]
    rfl
  · intro env fs c l v hmem hmatch
    have hentry : resolveRootEntryRaw env fs "" =
        normalizePathForComparison (resolveRealPath env fs "") := rfl
    have hne : l.isEmpty = false := by
      cases l with
      | nil => exact absurd hmem (by simp)
      | cons hd tl => rfl
    constructor
    · unfold isPathInAllowedExportPaths
      rw [hne]
      simp only [Bool.false_eq_true, if_false]
      rw [List.any_eq_true]
      exact ⟨"", hmem, by rw [hentry]; exact hmatch⟩
    · unfold isPathInAllowedContextPaths
      rw [hne]
      simp only [Bool.false_eq_true, if_false]
      rw [List.any_eq_true]
      exact ⟨"", hmem, by rw [hentry]; exact hmatch⟩

/-- Claim C10, witness: the two universal parts applied at the demonstration
filesystem. -/
theorem empty_entry_allows_cwd_witness :
    resolveRealPath demoEnv fsDemo "" = "/cwd" ∧
    (isPathInAllowedExportPaths demoEnv fsDemo "/cwd/file" [""] "/vault" = true ∧
      isPathInAllowedContextPaths demoEnv fsDemo "/cwd/file" [""] "/vault" = true) :=
  ⟨empty_entry_allows_cwd.1 demoEnv fsDemo "/cwd" (by decide) (by decide) (by decide),
   empty_entry_allows_cwd.2.1 demoEnv fsDemo "/cwd/file" [""] "/vault" (by decide) (by decide)⟩

/-! ## Claim C4: the upward walk of `resolveRealPath` -/

/-- Iterated `path.dirname`. -/
def iterDirname : Nat → String → String
  | 0, s => s
  | n + 1, s => iterDirname n (posixDirname s)

/-- The per-iteration probe of the walk: `existsSync` then `realpath`, a
thrown `realpath` (`Option.none`) counting as not found. -/
def foundProbe (fs : FS) (s : String) : Option String :=
  if fs.fexists s then fs.realpath s else Option.none

/-- Characterization of the walk: if the probe fails on the first `k`
ancestors (none of which is the filesystem root) and succeeds on the `k`-th
with canonical form `r`, the walk returns `r` with the stripped basenames
re-appended (deepest last). -/
theorem walkUp_iter (fs : FS) (abs r : String) :
    ∀ (k fuel : Nat) (current : String) (suffix : List String),
      k < fuel →
      (∀ j < k, foundProbe fs (iterDirname j current) = Option.none) →
      (∀ j < k, posixDirname (iterDirname j current) ≠ iterDirname j current) →
      foundProbe fs (iterDirname k current) = some r →
      walkUp fs abs fuel current suffix =
        (if (suffix ++ (List.range k).map
            (fun j => posixBasename (iterDirname j current))).isEmpty then r
         else posixJoin (r :: (suffix ++ (List.range k).map
            (fun j => posixBasename (iterDirname j current))).reverse)) := by
  intro k
  induction k with
  | zero =>
    intro fuel current suffix hk h1 h2 h3
    cases fuel with
    | zero => omega
    | succ f =>
      rw [walkUp_succ]
      have h3' : (if fs.fexists current then fs.realpath current else Option.none) = some r :=
        h3
      rw [h3']
      simp [List.range_zero]
  | succ k ih =>
    intro fuel current suffix hk h1 h2 h3
    cases fuel with
    | zero => omega
    | succ f =>
      rw [walkUp_succ]
      have h0 : (if fs.fexists current then fs.realpath current else Option.none) =
          Option.none := h1 0 (by omega)
      rw [h0]
      have hne : posixDirname current ≠ current := h2 0 (by omega)
      simp only [if_neg hne]
      have hrec := ih f (posixDirname current) (suffix ++ [posixBasename current])
        (by omega)
        (fun j hj => h1 (j + 1) (by omega))
        (fun j hj => h2 (j + 1) (by omega))
        h3
      rw [hrec]
      have hlist : (suffix ++ [posixBasename current]) ++ (List.range k).map
          (fun j => posixBasename (iterDirname j (posixDirname current))) =
          suffix ++ (List.range (k + 1)).map
            (fun j => posixBasename (iterDirname j current)) := by
        rw [List.append_assoc]
        congr 1
        rw [List.range_succ_eq_map, List.map_cons, List.map_map]
        rfl
      rw [hlist]

theorem walkUp_nothing (fs : FS) (abs : String) (hno : ∀ s, fs.fexists s = false) :
    ∀ (fuel : Nat) (cur : String) (suf : List String), walkUp fs abs fuel cur suf = abs := by
  intro fuel
  induction fuel with
  | zero => intro cur suf; rfl
  | succ f ih =>
    intro cur suf
    rw [walkUp_succ]
    rw [hno cur]
    simp only [Bool.false_eq_true, if_false]
    by_cases hp : posixDirname cur = cur
    · simp [hp]
    · simp [hp, ih]

/-- Claim C4: when the full target does not exist, `resolveRealPath` walks
upward one segment at a time to the nearest ancestor the probe resolves,
canonicalizes it, and re-appends the stripped segments in their original
order; consequently `resolveRealPath("/ctx/newfile.txt") = "/real/newfile.txt"`
when `/ctx` is a symlink to `/real` and the target does not exist yet; and
when no ancestor exists at all it returns the input made absolute without
canonicalization. -/
theorem resolveRealPath_walks_up :
    (∀ (env : JsEnv) (fs : FS) (p : String) (k : Nat) (r : String),
      fs.realpath p = Option.none →
      k ≤ (posixResolve env.cwd [p]).length →
      (∀ j < k, foundProbe fs (iterDirname j (posixResolve env.cwd [p])) = Option.none) →
      (∀ j < k, posixDirname (iterDirname j (posixResolve env.cwd [p])) ≠
        iterDirname j (posixResolve env.cwd [p])) →
      foundProbe fs (iterDirname k (posixResolve env.cwd [p])) = some r →
      resolveRealPath env fs p =
        (if k = 0 then r
         else posixJoin (r :: ((List.range k).map
            (fun j => posixBasename (iterDirname j (posixResolve env.cwd [p])))).reverse))) ∧
    (∀ (env : JsEnv) (fs : FS) (p : String),
      fs.realpath p = Option.none →
      (∀ s, fs.fexists s = false) →
      resolveRealPath env fs p = posixResolve env.cwd [p]) ∧
    resolveRealPath demoEnv fsDemo "/ctx/newfile.txt" = "/real/newfile.txt" := by
  refine ⟨?_, ?_, by decide⟩
  · intro env fs p k r h1 hk hprobe hroot hfound
    unfold resolveRealPath
    rw [h1]
    show walkUp fs (posixResolve env.cwd [p]) ((posixResolve env.cwd [p]).length + 1)
      (posixResolve env.cwd [p]) [] = _
    rw [walkUp_iter fs (posixResolve env.cwd [p]) r k ((posixResolve env.cwd [p]).length + 1)
      (posixResolve env.cwd [p]) [] (by omega) hprobe hroot hfound]
    cases k with
    | zero => simp
    | succ k' => simp [List.range_succ]
  · intro env fs p h1 hno
    unfold resolveRealPath
    rw [h1]
    exact walkUp_nothing fs (posixResolve env.cwd [p]) hno _ _ _

/-- Claim C4, witness: the walk characterization applied at the concrete
symlinked one-segment example. -/
theorem resolveRealPath_walks_up_witness :
    resolveRealPath demoEnv fsDemo "/ctx/newfile.txt" =
      (if (1 : Nat) = 0 then "/real"
       else posixJoin ("/real" :: ((List.range 1).map (fun j => posixBasename
          (iterDirname j (posixResolve demoEnv.cwd ["/ctx/newfile.txt"])))).reverse)) :=
  resolveRealPath_walks_up.1 demoEnv fsDemo "/ctx/newfile.txt" 1 "/real" (by decide)
    (by decide) (by decide) (by decide) (by decide)

/-! ## Scanner lemmas: a pass whose lookups all fail copies its input -/

theorem takeWhile_append_drop (P : Char → Bool) (l : List Char) :
    l.takeWhile P ++ l.drop (l.takeWhile P).length = l := by
  conv_rhs => rw [← List.take_append_drop (l.takeWhile P).length l]
  congr 1
  have hpre : l.takeWhile P <+: l := List.takeWhile_prefix P
  exact List.prefix_iff_eq_take.mp hpre

theorem head_tail_of_head? {l : List Char} {a : Char} (h : l.head? = some a) :
    l = a :: l.tail := by
  cases l with
  | nil => exact absurd h (by simp)
  | cons x t =>
    simp at h
    rw [h]
    rfl

theorem length_drop_le (n : Nat) (l : List Char) : (l.drop n).length ≤ l.length := by
  rw [List.length_drop]
  omega

theorem scanPercentGo_verbatim (lookup : String → Option String)
    (hnone : ∀ n, lookup n = Option.none) :
    ∀ (fuel : Nat) (l : List Char), l.length ≤ fuel → scanPercentGo lookup fuel l = l := by
  intro fuel
  induction fuel with
  | zero =>
    intro l hl
    cases l with
    | nil => rfl
    | cons c cs => simp at hl
  | succ f ih =>
    intro l hl
    cases l with
    | nil => rfl
    | cons c cs =>
      have hlcs : cs.length ≤ f := by
        simp at hl
        omega
      simp only [scanPercentGo]
      by_cases hc : c = '%'
      · rw [if_pos hc]
        cases cs with
        | nil => rfl
        | cons f1 rest =>
          by_cases hf : isNameStartChar f1 = true
          · simp only [hf, if_true, hnone]
            by_cases hh : (rest.drop (rest.takeWhile isPctNameChar).length).head? = some '%'
            · rw [if_pos hh]
              have hlen : (rest.drop (rest.takeWhile isPctNameChar).length).tail.length ≤ f := by
                have h1 := length_drop_le (rest.takeWhile isPctNameChar).length rest
                have h2 := List.length_tail (rest.drop (rest.takeWhile isPctNameChar).length)
                simp at hl
                omega
              rw [ih _ hlen]
              have hsplit := takeWhile_append_drop isPctNameChar rest
              have hat := head_tail_of_head? hh
              rw [List.cons_append, List.cons_append, List.append_assoc]
              rw [List.singleton_append, ← hat, hsplit]
            · rw [if_neg hh]
              rw [ih _ hlcs]
          · simp only [hf, if_false]
            rw [ih _ hlcs]
            simp
      · rw [if_neg hc]
        rw [ih _ hlcs]

theorem scanBangGo_verbatim (lookup : String → Option String)
    (hnone : ∀ n, lookup n = Option.none) :
    ∀ (fuel : Nat) (l : List Char), l.length ≤ fuel → scanBangGo lookup fuel l = l := by
  intro fuel
  induction fuel with
  | zero =>
    intro l hl
    cases l with
    | nil => rfl
    | cons c cs => simp at hl
  | succ f ih =>
    intro l hl
    cases l with
    | nil => rfl
    | cons c cs =>
      have hlcs : cs.length ≤ f := by
        simp at hl
        omega
      simp only [scanBangGo]
      by_cases hc : c = '!'
      · rw [if_pos hc]
        cases cs with
        | nil => rfl
        | cons f1 rest =>
          by_cases hf : isNameStartChar f1 = true
          · simp only [hf, if_true, hnone]
            by_cases hh : (rest.drop (rest.takeWhile isWordChar).length).head? = some '!'
            · rw [if_pos hh]
              have hlen : (rest.drop (rest.takeWhile isWordChar).length).tail.length ≤ f := by
                have h1 := length_drop_le (rest.takeWhile isWordChar).length rest
                have h2 := List.length_tail (rest.drop (rest.takeWhile isWordChar).length)
                simp at hl
                omega
              rw [ih _ hlen]
              have hsplit := takeWhile_append_drop isWordChar rest
              have hat := head_tail_of_head? hh
              rw [List.cons_append, List.cons_append, List.append_assoc]
              rw [List.singleton_append, ← hat, hsplit]
            · rw [if_neg hh]
              rw [ih _ hlcs]
          · simp only [hf, if_false]
            rw [ih _ hlcs]
            simp
      · rw [if_neg hc]
        rw [ih _ hlcs]

theorem scanPercentGo_nil (lookup : String → Option String) (fuel : Nat) :
    scanPercentGo lookup fuel [] = [] := by
  cases fuel <;> rfl

theorem scanBangGo_nil (lookup : String → Option String) (fuel : Nat) :
    scanBangGo lookup fuel [] = [] := by
  cases fuel <;> rfl

theorem scanDollarEnvGo_nil (lookup : String → Option String) (fuel : Nat) :
    scanDollarEnvGo lookup fuel [] = [] := by
  cases fuel <;> rfl

theorem scanPosixGo_nil (lookup : String → Option String) (fuel : Nat) :
    scanPosixGo lookup fuel [] = [] := by
  cases fuel <;> rfl

theorem scanDollarEnvGo_verbatim (lookup : String → Option String)
    (hnone : ∀ n, lookup n = Option.none) :
    ∀ (fuel : Nat) (l : List Char), l.length ≤ fuel → scanDollarEnvGo lookup fuel l = l := by
  intro fuel
  induction fuel with
  | zero =>
    intro l hl
    cases l with
    | nil => rfl
    | cons c cs => simp at hl
  | succ f ih =>
    intro l hl
    cases l with
    | nil => rfl
    | cons c cs =>
      have hlcs : cs.length ≤ f := by
        simp at hl
        omega
      simp only [scanDollarEnvGo]
      by_cases hc : c = '$'
      · rw [if_pos hc]
        rcases cs with _ | ⟨e, _ | ⟨n, _ | ⟨v, _ | ⟨col, _ | ⟨f1, rest1⟩⟩⟩⟩⟩
        · exact congrArg (fun t => c :: t) (scanDollarEnvGo_nil lookup f)
        · exact congrArg (fun t => c :: t) (ih _ hlcs)
        · exact congrArg (fun t => c :: t) (ih _ hlcs)
        · exact congrArg (fun t => c :: t) (ih _ hlcs)
        · exact congrArg (fun t => c :: t) (ih _ hlcs)
        · by_cases hcond : (e.toLower = 'e' && n.toLower = 'n' && v.toLower = 'v' &&
              col = ':' && isNameStartChar f1) = true
          · simp only [hcond, if_true, hnone]
            have hlen : (rest1.drop (rest1.takeWhile isWordChar).length).length ≤ f := by
              have h1 := length_drop_le (rest1.takeWhile isWordChar).length rest1
              simp at hl
              omega
            rw [ih _ hlen]
            have hsplit := takeWhile_append_drop isWordChar rest1
            simp only [List.cons_append]
            rw [hsplit]
          · simp only [hcond, Bool.false_eq_true, if_false]
            rw [ih _ hlcs]
      · rw [if_neg hc]
        rw [ih _ hlcs]

theorem scanPosixGo_verbatim (lookup : String → Option String)
    (hnone : ∀ n, lookup n = Option.none) :
    ∀ (fuel : Nat) (l : List Char), l.length ≤ fuel → scanPosixGo lookup fuel l = l := by
  intro fuel
  induction fuel with
  | zero =>
    intro l hl
    cases l with
    | nil => rfl
    | cons c cs => simp at hl
  | succ f ih =>
    intro l hl
    cases l with
    | nil => rfl
    | cons c cs =>
      have hlcs : cs.length ≤ f := by
        simp at hl
        omega
      simp only [scanPosixGo]
      by_cases hc : c = '$'
      · rw [if_pos hc]
        cases cs with
        | nil => rfl
        | cons f1 rest1 =>
          by_cases hf : isNameStartChar f1 = true
          · simp only [hf, if_true, hnone]
            have hlen : (rest1.drop (rest1.takeWhile isWordChar).length).length ≤ f := by
              have h1 := length_drop_le (rest1.takeWhile isWordChar).length rest1
              simp at hl
              omega
            rw [ih _ hlen]
            have hsplit := takeWhile_append_drop isWordChar rest1
            simp only [List.cons_append]
            rw [hsplit]
          · simp only [hf, Bool.false_eq_true, if_false]
            by_cases hbrace : f1 = '{'
            · rw [if_pos hbrace]
              cases rest1 with
              | nil =>
                exact congrArg (fun t => c :: t) (ih _ hlcs)
              | cons g rest2 =>
                by_cases hg : isNameStartChar g = true
                · simp only [hg, if_true]
                  by_cases hh : (rest2.drop (rest2.takeWhile isWordChar).length).head? =
                      some '}'
                  · rw [if_pos hh]
                    simp only [hnone]
                    have hlen :
                        (rest2.drop (rest2.takeWhile isWordChar).length).tail.length ≤ f := by
                      have h1 := length_drop_le (rest2.takeWhile isWordChar).length rest2
                      have h2 := List.length_tail
                        (rest2.drop (rest2.takeWhile isWordChar).length)
                      simp at hl
                      omega
                    rw [ih _ hlen]
                    have hsplit := takeWhile_append_drop isWordChar rest2
                    have hat := head_tail_of_head? hh
                    rw [List.cons_append, List.cons_append, List.cons_append,
                      List.append_assoc]
                    rw [List.singleton_append, ← hat, hsplit]
                  · rw [if_neg hh]
                    exact congrArg (fun t => c :: t) (ih _ hlcs)
                · simp only [hg, Bool.false_eq_true, if_false]
                  rw [ih _ hlcs]
            · rw [if_neg hbrace]
              rw [ih _ hlcs]
      · rw [if_neg hc]
        rw [ih _ hlcs]

/-! ## Scanner lemmas: a pass never fires on text without its trigger -/

theorem scanPercentGo_no_trigger (lookup : String → Option String) :
    ∀ (fuel : Nat) (l : List Char), l.length ≤ fuel → '%' ∉ l →
      scanPercentGo lookup fuel l = l := by
  intro fuel
  induction fuel with
  | zero =>
    intro l hl _
    cases l with
    | nil => rfl
    | cons c cs => simp at hl
  | succ f ih =>
    intro l hl hm
    cases l with
    | nil => rfl
    | cons c cs =>
      have hlcs : cs.length ≤ f := by
        simp at hl
        omega
      have hc : ¬ c = '%' := by
        intro h
        exact hm (by rw [h]; exact List.mem_cons_self _ _)
      simp only [scanPercentGo]
      rw [if_neg hc]
      rw [ih _ hlcs (fun hx => hm (List.mem_cons_of_mem _ hx))]

theorem scanBangGo_no_trigger (lookup : String → Option String) :
    ∀ (fuel : Nat) (l : List Char), l.length ≤ fuel → '!' ∉ l →
      scanBangGo lookup fuel l = l := by
  intro fuel
  induction fuel with
  | zero =>
    intro l hl _
    cases l with
    | nil => rfl
    | cons c cs => simp at hl
  | succ f ih =>
    intro l hl hm
    cases l with
    | nil => rfl
    | cons c cs =>
      have hlcs : cs.length ≤ f := by
        simp at hl
        omega
      have hc : ¬ c = '!' := by
        intro h
        exact hm (by rw [h]; exact List.mem_cons_self _ _)
      simp only [scanBangGo]
      rw [if_neg hc]
      rw [ih _ hlcs (fun hx => hm (List.mem_cons_of_mem _ hx))]

theorem scanPosixGo_no_trigger (lookup : String → Option String) :
    ∀ (fuel : Nat) (l : List Char), l.length ≤ fuel → '$' ∉ l →
      scanPosixGo lookup fuel l = l := by
  intro fuel
  induction fuel with
  | zero =>
    intro l hl _
    cases l with
    | nil => rfl
    | cons c cs => simp at hl
  | succ f ih =>
    intro l hl hm
    cases l with
    | nil => rfl
    | cons c cs =>
      have hlcs : cs.length ≤ f := by
        simp at hl
        omega
      have hc : ¬ c = '$' := by
        intro h
        exact hm (by rw [h]; exact List.mem_cons_self _ _)
      simp only [scanPosixGo]
      rw [if_neg hc]
      rw [ih _ hlcs (fun hx => hm (List.mem_cons_of_mem _ hx))]

theorem scanDollarEnvGo_no_trigger (lookup : String → Option String) :
    ∀ (fuel : Nat) (l : List Char), l.length ≤ fuel → '$' ∉ l →
      scanDollarEnvGo lookup fuel l = l := by
  intro fuel
  induction fuel with
  | zero =>
    intro l hl _
    cases l with
    | nil => rfl
    | cons c cs => simp at hl
  | succ f ih =>
    intro l hl hm
    cases l with
    | nil => rfl
    | cons c cs =>
      have hlcs : cs.length ≤ f := by
        simp at hl
        omega
      have hc : ¬ c = '$' := by
        intro h
        exact hm (by rw [h]; exact List.mem_cons_self _ _)
      simp only [scanDollarEnvGo]
      rw [if_neg hc]
      rw [ih _ hlcs (fun hx => hm (List.mem_cons_of_mem _ hx))]

/-- The `$env:` pass needs a literal colon to fire at all. -/
theorem scanDollarEnvGo_no_colon (lookup : String → Option String) :
    ∀ (fuel : Nat) (l : List Char), l.length ≤ fuel → ':' ∉ l →
      scanDollarEnvGo lookup fuel l = l := by
  intro fuel
  induction fuel with
  | zero =>
    intro l hl _
    cases l with
    | nil => rfl
    | cons c cs => simp at hl
  | succ f ih =>
    intro l hl hm
    cases l with
    | nil => rfl
    | cons c cs =>
      have hlcs : cs.length ≤ f := by
        simp at hl
        omega
      have hmcs : ':' ∉ cs := fun hx => hm (List.mem_cons_of_mem _ hx)
      simp only [scanDollarEnvGo]
      by_cases hc : c = '$'
      · rw [if_pos hc]
        rcases cs with _ | ⟨e, _ | ⟨n, _ | ⟨v, _ | ⟨col, _ | ⟨f1, rest1⟩⟩⟩⟩⟩
        · exact congrArg (fun t => c :: t) (scanDollarEnvGo_nil lookup f)
        · exact congrArg (fun t => c :: t) (ih _ hlcs hmcs)
        · exact congrArg (fun t => c :: t) (ih _ hlcs hmcs)
        · exact congrArg (fun t => c :: t) (ih _ hlcs hmcs)
        · exact congrArg (fun t => c :: t) (ih _ hlcs hmcs)
        · have hcond : ¬ (e.toLower = 'e' && n.toLower = 'n' && v.toLower = 'v' &&
              col = ':' && isNameStartChar f1) = true := by
            intro h
            simp only [Bool.and_eq_true, decide_eq_true_eq] at h
            exact hmcs (by rw [← h.1.2]; simp)
          simp only [hcond, Bool.false_eq_true, if_false]
          rw [ih _ hlcs hmcs]
      · rw [if_neg hc]
        rw [ih _ hlcs hmcs]

/-! ## Well-formed environment-variable names and substitution values -/

theorem jsIncludes_iff {s : String} {c : Char} : jsIncludes s c = true ↔ c ∈ s.data := by
  simp [jsIncludes]

theorem noMetaB_parts {v : String} (h : noMetaB v = true) :
    '%' ∉ v.data ∧ '$' ∉ v.data ∧ '!' ∉ v.data := by
  unfold noMetaB at h
  simp only [Bool.and_eq_true, Bool.not_eq_true'] at h
  refine ⟨?_, ?_, ?_⟩ <;> intro hm
  · have := jsIncludes_iff.mpr hm
    rw [h.1.1] at this
    exact absurd this (by decide)
  · have := jsIncludes_iff.mpr hm
    rw [h.1.2] at this
    exact absurd this (by decide)
  · have := jsIncludes_iff.mpr hm
    rw [h.2] at this
    exact absurd this (by decide)

theorem validNameB_parts {name : String} (h : validNameB name = true) :
    ∃ f tail, name.data = f :: tail ∧ isNameStartChar f = true ∧
      ∀ c ∈ tail, isWordChar c = true := by
  unfold validNameB at h
  cases hd : name.data with
  | nil =>
    rw [hd] at h
    simp at h
  | cons f tail =>
    rw [hd] at h
    simp only [Bool.and_eq_true, List.all_eq_true] at h
    exact ⟨f, tail, rfl, h.1, h.2⟩

theorem validPctNameB_parts {name : String} (h : validPctNameB name = true) :
    ∃ f tail, name.data = f :: tail ∧ isNameStartChar f = true ∧
      ∀ c ∈ tail, isPctNameChar c = true := by
  unfold validPctNameB at h
  cases hd : name.data with
  | nil =>
    rw [hd] at h
    simp at h
  | cons f tail =>
    rw [hd] at h
    simp only [Bool.and_eq_true, List.all_eq_true] at h
    exact ⟨f, tail, rfl, h.1, h.2⟩

theorem isPctNameChar_not_special {c : Char} (h : isPctNameChar c = true) :
    ¬ c = '%' ∧ ¬ c = '$' ∧ ¬ c = '!' ∧ ¬ c = ':' := by
  refine ⟨?_, ?_, ?_, ?_⟩ <;> intro he <;> rw [he] at h <;> exact absurd h (by decide)

theorem isWordChar_not_special {c : Char} (h : isWordChar c = true) :
    ¬ c = '%' ∧ ¬ c = '$' ∧ ¬ c = '!' ∧ ¬ c = ':' := by
  refine ⟨?_, ?_, ?_, ?_⟩ <;> intro he <;> rw [he] at h <;> exact absurd h (by decide)

theorem isNameStartChar_not_special {c : Char} (h : isNameStartChar c = true) :
    ¬ c = '%' ∧ ¬ c = '$' ∧ ¬ c = '!' ∧ ¬ c = ':' := by
  refine ⟨?_, ?_, ?_, ?_⟩ <;> intro he <;> rw [he] at h <;> exact absurd h (by decide)

theorem takeWhile_all (P : Char → Bool) :
    ∀ (l : List Char), (∀ c ∈ l, P c = true) → l.takeWhile P = l := by
  intro l
  induction l with
  | nil => intro _; rfl
  | cons a t ih =>
    intro h
    rw [List.takeWhile_cons, if_pos (h a (List.mem_cons_self a t))]
    rw [ih (fun c hc => h c (List.mem_cons_of_mem a hc))]

theorem takeWhile_append_stop (P : Char → Bool) (l : List Char) (x : Char) (xs : List Char)
    (h : ∀ c ∈ l, P c = true) (hx : P x = false) :
    (l ++ x :: xs).takeWhile P = l := by
  induction l with
  | nil =>
    rw [List.nil_append, List.takeWhile_cons, hx]
    rfl
  | cons a t ih =>
    rw [List.cons_append, List.takeWhile_cons, if_pos (h a (List.mem_cons_self a t))]
    rw [ih (fun c hc => h c (List.mem_cons_of_mem a hc))]

/-! ## Scanner lemmas: each pass on an exact reference substitutes or, when the
variable is unresolvable, leaves the matched text verbatim -/

theorem scanPercentGo_subst (lookup : String → Option String) (fuel : Nat)
    (f : Char) (tail : List Char)
    (hf : isNameStartChar f = true) (htail : ∀ c ∈ tail, isPctNameChar c = true) :
    scanPercentGo lookup (fuel + 1) ('%' :: f :: (tail ++ ['%'])) =
      (match lookup (String.mk (f :: tail)) with
       | some v => v.data
       | Option.none => '%' :: f :: (tail ++ ['%'])) := by
  have hrun : (tail ++ ['%']).takeWhile isPctNameChar = tail :=
    takeWhile_append_stop _ _ _ _ htail (by decide)
  have hdrop : (tail ++ ['%']).drop tail.length = ['%'] := List.drop_left tail ['%']
  simp only [scanPercentGo, hf, if_true, hrun, hdrop]
  simp [scanPercentGo_nil]

theorem scanBangGo_subst (lookup : String → Option String) (fuel : Nat)
    (f : Char) (tail : List Char)
    (hf : isNameStartChar f = true) (htail : ∀ c ∈ tail, isWordChar c = true) :
    scanBangGo lookup (fuel + 1) ('!' :: f :: (tail ++ ['!'])) =
      (match lookup (String.mk (f :: tail)) with
       | some v => v.data
       | Option.none => '!' :: f :: (tail ++ ['!'])) := by
  have hrun : (tail ++ ['!']).takeWhile isWordChar = tail :=
    takeWhile_append_stop _ _ _ _ htail (by decide)
  have hdrop : (tail ++ ['!']).drop tail.length = ['!'] := List.drop_left tail ['!']
  simp only [scanBangGo, hf, if_true, hrun, hdrop]
  simp [scanBangGo_nil]

theorem scanDollarEnvGo_subst (lookup : String → Option String) (fuel : Nat)
    (f : Char) (tail : List Char)
    (hf : isNameStartChar f = true) (htail : ∀ c ∈ tail, isWordChar c = true) :
    scanDollarEnvGo lookup (fuel + 1) ('$' :: 'e' :: 'n' :: 'v' :: ':' :: f :: tail) =
      (match lookup (String.mk (f :: tail)) with
       | some v => v.data
       | Option.none => '$' :: 'e' :: 'n' :: 'v' :: ':' :: f :: tail) := by
  have hrun : tail.takeWhile isWordChar = tail := takeWhile_all _ tail htail
  have hdrop : tail.drop tail.length = ([] : List Char) := List.drop_length tail
  simp only [scanDollarEnvGo, hf, hrun, hdrop]
  simp [scanDollarEnvGo_nil]

theorem scanPosixGo_subst_name (lookup : String → Option String) (fuel : Nat)
    (f : Char) (tail : List Char)
    (hf : isNameStartChar f = true) (htail : ∀ c ∈ tail, isWordChar c = true) :
    scanPosixGo lookup (fuel + 1) ('$' :: f :: tail) =
      (match lookup (String.mk (f :: tail)) with
       | some v => v.data
       | Option.none => '$' :: f :: tail) := by
  have hrun : tail.takeWhile isWordChar = tail := takeWhile_all _ tail htail
  have hdrop : tail.drop tail.length = ([] : List Char) := List.drop_length tail
  simp only [scanPosixGo, hf, if_true, hrun, hdrop]
  simp [scanPosixGo_nil]

theorem scanPosixGo_subst_braced (lookup : String → Option String) (fuel : Nat)
    (g : Char) (tail : List Char)
    (hg : isNameStartChar g = true) (htail : ∀ c ∈ tail, isWordChar c = true) :
    scanPosixGo lookup (fuel + 1) ('$' :: '{' :: g :: (tail ++ ['}'])) =
      (match lookup (String.mk (g :: tail)) with
       | some v => v.data
       | Option.none => '$' :: '{' :: g :: (tail ++ ['}'])) := by
  have hrun : (tail ++ ['}']).takeWhile isWordChar = tail :=
    takeWhile_append_stop _ _ _ _ htail (by decide)
  have hdrop : (tail ++ ['}']).drop tail.length = ['}'] := List.drop_left tail ['}']
  have hbrace : isNameStartChar '{' = false := by decide
  simp only [scanPosixGo, hbrace, Bool.false_eq_true, if_false, hg, if_true, hrun, hdrop]
  simp [scanPosixGo_nil]

/-- On POSIX the `$NAME` pass sees `$env:NAME` as a reference to a variable
named `env`; when no such variable exists the whole text survives verbatim. -/
theorem scanPosixGo_env_verbatim (lookup : String → Option String) (fuel : Nat)
    (tail : List Char)
    (htail : ∀ c ∈ tail, isWordChar c = true)
    (hnone : lookup (String.mk ['e', 'n', 'v']) = Option.none)
    (hfuel : tail.length + 1 ≤ fuel) :
    scanPosixGo lookup (fuel + 1) ('$' :: 'e' :: 'n' :: 'v' :: ':' :: tail) =
      '$' :: 'e' :: 'n' :: 'v' :: ':' :: tail := by
  have hn : isWordChar 'n' = true := by decide
  have hv : isWordChar 'v' = true := by decide
  have hcol : isWordChar ':' = false := by decide
  have hrun : ('n' :: 'v' :: ':' :: tail).takeWhile isWordChar = ['n', 'v'] := by
    rw [List.takeWhile_cons, if_pos hn, List.takeWhile_cons, if_pos hv,
      List.takeWhile_cons, hcol]
    rfl
  have hdrop : ('n' :: 'v' :: ':' :: tail).drop 2 = ':' :: tail := rfl
  have hrest : scanPosixGo lookup fuel (':' :: tail) = ':' :: tail := by
    refine scanPosixGo_no_trigger lookup fuel (':' :: tail) (by simp; omega) ?_
    intro hm
    rcases List.mem_cons.mp hm with h | h
    · exact absurd h (by decide)
    · exact absurd (htail _ h) (by decide)
  have he : isNameStartChar 'e' = true := by decide
  simp only [scanPosixGo, he, if_true, hrun, hnone]
  simp [hdrop, hrest]

/-! ## Lifting the scanner lemmas to the pass entry points -/

theorem scanPercentAux_no_trigger (lookup : String → Option String) (l : List Char)
    (h : '%' ∉ l) : scanPercentAux lookup l = l :=
  scanPercentGo_no_trigger lookup l.length l le_rfl h

theorem scanBangAux_no_trigger (lookup : String → Option String) (l : List Char)
    (h : '!' ∉ l) : scanBangAux lookup l = l :=
  scanBangGo_no_trigger lookup l.length l le_rfl h

theorem scanPosixAux_no_trigger (lookup : String → Option String) (l : List Char)
    (h : '$' ∉ l) : scanPosixAux lookup l = l :=
  scanPosixGo_no_trigger lookup l.length l le_rfl h

theorem scanDollarEnvAux_no_trigger (lookup : String → Option String) (l : List Char)
    (h : '$' ∉ l) : scanDollarEnvAux lookup l = l :=
  scanDollarEnvGo_no_trigger lookup l.length l le_rfl h

theorem scanDollarEnvAux_no_colon (lookup : String → Option String) (l : List Char)
    (h : ':' ∉ l) : scanDollarEnvAux lookup l = l :=
  scanDollarEnvGo_no_colon lookup l.length l le_rfl h

theorem scanPercentAux_verbatim (lookup : String → Option String)
    (hnone : ∀ n, lookup n = Option.none) (l : List Char) : scanPercentAux lookup l = l :=
  scanPercentGo_verbatim lookup hnone l.length l le_rfl

theorem scanBangAux_verbatim (lookup : String → Option String)
    (hnone : ∀ n, lookup n = Option.none) (l : List Char) : scanBangAux lookup l = l :=
  scanBangGo_verbatim lookup hnone l.length l le_rfl

theorem scanDollarEnvAux_verbatim (lookup : String → Option String)
    (hnone : ∀ n, lookup n = Option.none) (l : List Char) : scanDollarEnvAux lookup l = l :=
  scanDollarEnvGo_verbatim lookup hnone l.length l le_rfl

theorem scanPosixAux_verbatim (lookup : String → Option String)
    (hnone : ∀ n, lookup n = Option.none) (l : List Char) : scanPosixAux lookup l = l :=
  scanPosixGo_verbatim lookup hnone l.length l le_rfl

theorem scanPercentAux_subst (lookup : String → Option String) (f : Char) (tail : List Char)
    (hf : isNameStartChar f = true) (htail : ∀ c ∈ tail, isPctNameChar c = true) :
    scanPercentAux lookup ('%' :: f :: (tail ++ ['%'])) =
      (match lookup (String.mk (f :: tail)) with
       | some v => v.data
       | Option.none => '%' :: f :: (tail ++ ['%'])) := by
  unfold scanPercentAux
  rw [List.length_cons]
  exact scanPercentGo_subst lookup _ f tail hf htail

theorem scanBangAux_subst (lookup : String → Option String) (f : Char) (tail : List Char)
    (hf : isNameStartChar f = true) (htail : ∀ c ∈ tail, isWordChar c = true) :
    scanBangAux lookup ('!' :: f :: (tail ++ ['!'])) =
      (match lookup (String.mk (f :: tail)) with
       | some v => v.data
       | Option.none => '!' :: f :: (tail ++ ['!'])) := by
  unfold scanBangAux
  rw [List.length_cons]
  exact scanBangGo_subst lookup _ f tail hf htail

theorem scanDollarEnvAux_subst (lookup : String → Option String) (f : Char) (tail : List Char)
    (hf : isNameStartChar f = true) (htail : ∀ c ∈ tail, isWordChar c = true) :
    scanDollarEnvAux lookup ('$' :: 'e' :: 'n' :: 'v' :: ':' :: f :: tail) =
      (match lookup (String.mk (f :: tail)) with
       | some v => v.data
       | Option.none => '$' :: 'e' :: 'n' :: 'v' :: ':' :: f :: tail) := by
  unfold scanDollarEnvAux
  rw [List.length_cons]
  exact scanDollarEnvGo_subst lookup _ f tail hf htail

theorem scanPosixAux_subst_name (lookup : String → Option String) (f : Char) (tail : List Char)
    (hf : isNameStartChar f = true) (htail : ∀ c ∈ tail, isWordChar c = true) :
    scanPosixAux lookup ('$' :: f :: tail) =
      (match lookup (String.mk (f :: tail)) with
       | some v => v.data
       | Option.none => '$' :: f :: tail) := by
  unfold scanPosixAux
  rw [List.length_cons]
  exact scanPosixGo_subst_name lookup _ f tail hf htail

theorem scanPosixAux_subst_braced (lookup : String → Option String) (g : Char) (tail : List Char)
    (hg : isNameStartChar g = true) (htail : ∀ c ∈ tail, isWordChar c = true) :
    scanPosixAux lookup ('$' :: '{' :: g :: (tail ++ ['}'])) =
      (match lookup (String.mk (g :: tail)) with
       | some v => v.data
       | Option.none => '$' :: '{' :: g :: (tail ++ ['}'])) := by
  unfold scanPosixAux
  rw [List.length_cons]
  exact scanPosixGo_subst_braced lookup _ g tail hg htail

theorem scanPosixAux_env_verbatim (lookup : String → Option String) (tail : List Char)
    (htail : ∀ c ∈ tail, isWordChar c = true)
    (hnone : lookup (String.mk ['e', 'n', 'v']) = Option.none) :
    scanPosixAux lookup ('$' :: 'e' :: 'n' :: 'v' :: ':' :: tail) =
      '$' :: 'e' :: 'n' :: 'v' :: ':' :: tail := by
  unfold scanPosixAux
  have hlen : ('$' :: 'e' :: 'n' :: 'v' :: ':' :: tail).length = (tail.length + 4) + 1 := by
    simp
  rw [hlen]
  exact scanPosixGo_env_verbatim lookup (tail.length + 4) tail htail hnone (by omega)

/-! ## The lookup function of the passes -/

theorem getEnvValue_of_exact {envVars : List (String × String)} {k v : String} (w : Bool)
    (h : lookupExact envVars k = some v) : getEnvValue w envVars k = some v := by
  unfold getEnvValue
  rw [h]

theorem getEnvValue_false_none {envVars : List (String × String)} {k : String}
    (h : lookupExact envVars k = Option.none) : getEnvValue false envVars k = Option.none := by
  unfold getEnvValue
  rw [h]
  rfl

theorem getEnvValue_nil (w : Bool) (k : String) : getEnvValue w [] k = Option.none := by
  cases w <;> rfl

/-! ## Running `expandEnvironmentVariables` past its short-circuit guard -/

theorem expandEnv_run_false (envVars : List (String × String)) (value : String)
    (h : (!(jsIncludes value '%') && !(jsIncludes value '$') && !(jsIncludes value '!'))
        = false) :
    expandEnvironmentVariables false envVars value =
      String.mk (scanPosixAux (getEnvValue false envVars)
        (scanPercentAux (getEnvValue false envVars) value.data)) := by
  unfold expandEnvironmentVariables
  rw [h]
  rfl

theorem expandEnv_run_true (envVars : List (String × String)) (value : String)
    (h : (!(jsIncludes value '%') && !(jsIncludes value '$') && !(jsIncludes value '!'))
        = false) :
    expandEnvironmentVariables true envVars value =
      String.mk (scanPosixAux (getEnvValue true envVars)
        (scanDollarEnvAux (getEnvValue true envVars)
          (scanBangAux (getEnvValue true envVars)
            (scanPercentAux (getEnvValue true envVars) value.data)))) := by
  unfold expandEnvironmentVariables
  rw [h]
  rfl

/-- With an empty process environment, every lookup fails, every pass copies
its input, and expansion is the identity on every string. -/
theorem expandEnv_nil (w : Bool) (x : String) : expandEnvironmentVariables w [] x = x := by
  by_cases hg : (!(jsIncludes x '%') && !(jsIncludes x '$') && !(jsIncludes x '!')) = true
  · unfold expandEnvironmentVariables
    rw [hg]
    rfl
  · have hg' : (!(jsIncludes x '%') && !(jsIncludes x '$') && !(jsIncludes x '!')) = false :=
      Bool.eq_false_iff.mpr hg
    have hnone : ∀ k, getEnvValue w [] k = Option.none := fun k => getEnvValue_nil w k
    cases w
    · rw [expandEnv_run_false _ _ hg']
      rw [scanPercentAux_verbatim _ hnone, scanPosixAux_verbatim _ hnone]
    · rw [expandEnv_run_true _ _ hg']
      rw [scanPercentAux_verbatim _ hnone, scanBangAux_verbatim _ hnone,
        scanDollarEnvAux_verbatim _ hnone, scanPosixAux_verbatim _ hnone]

/-! ## Name characters are never pass triggers -/

theorem name_mem_not_special {c f : Char} {tail : List Char} (hf : isNameStartChar f = true)
    (htail : ∀ x ∈ tail, isWordChar x = true) (hm : c ∈ f :: tail) :
    ¬ c = '%' ∧ ¬ c = '$' ∧ ¬ c = '!' ∧ ¬ c = ':' := by
  rcases List.mem_cons.mp hm with h | h
  · subst h
    exact isNameStartChar_not_special hf
  · exact isWordChar_not_special (htail c h)

theorem pct_mem_not_special {c f : Char} {tail : List Char} (hf : isNameStartChar f = true)
    (htail : ∀ x ∈ tail, isPctNameChar x = true) (hm : c ∈ f :: tail) :
    ¬ c = '%' ∧ ¬ c = '$' ∧ ¬ c = '!' ∧ ¬ c = ':' := by
  rcases List.mem_cons.mp hm with h | h
  · subst h
    exact isNameStartChar_not_special hf
  · exact isPctNameChar_not_special (htail c h)

/-! ## Absolute paths and the home-expansion branches -/

theorem jsStartsWith_slash_data {s : String} (h : jsStartsWith s "/" = true) :
    ∃ t, s.data = '/' :: t := by
  rw [jsStartsWith_iff] at h
  obtain ⟨t, ht⟩ := h
  exact ⟨t, ht.symm⟩

theorem slash_append_abs (b : String) : jsStartsWith ("/" ++ b) "/" = true := by
  rw [jsStartsWith_iff, String.data_append]
  exact List.prefix_append _ _

theorem abs_not_tilde (s : String) (h : jsStartsWith s "/" = true) :
    ¬ s = "~" ∧ jsStartsWith s "~/" = false ∧ jsStartsWith s "~\\" = false := by
  obtain ⟨t, ht⟩ := jsStartsWith_slash_data h
  refine ⟨?_, ?_, ?_⟩
  · intro he
    rw [he] at ht
    have ht2 : '~' :: ([] : List Char) = '/' :: t := ht
    injection ht2 with h1 _
    exact absurd h1 (by decide)
  · rw [Bool.eq_false_iff]
    intro hpre
    rw [jsStartsWith_iff, ht] at hpre
    obtain ⟨u, hu⟩ := hpre
    rw [show ("~/" : String).data = ['~', '/'] from by decide] at hu
    have hu2 : '~' :: '/' :: u = '/' :: t := hu
    injection hu2 with h1 _
    exact absurd h1 (by decide)
  · rw [Bool.eq_false_iff]
    intro hpre
    rw [jsStartsWith_iff, ht] at hpre
    obtain ⟨u, hu⟩ := hpre
    rw [show ("~\\" : String).data = ['~', '\\'] from by decide] at hu
    have hu2 : '~' :: '\\' :: u = '/' :: t := hu
    injection hu2 with h1 _
    exact absurd h1 (by decide)

theorem posixNormalize_abs (p : String) (h : posixIsAbsolute p = true) :
    jsStartsWith (posixNormalize p) "/" = true := by
  have hne : ¬ p = "" := by
    intro he
    rw [he] at h
    exact absurd h (by decide)
  unfold posixNormalize
  rw [if_neg hne]
  simp only [h, eq_self_iff_true, if_true]
  by_cases hc : joinSegs (normalizeSegs (!true) (splitSlash p)) = ""
  · rw [if_pos hc]
    decide
  · rw [if_neg hc]
    exact slash_append_abs _

theorem posixJoin_two_abs (a b : String) (ha : jsStartsWith a "/" = true) :
    jsStartsWith (posixJoin [a, b]) "/" = true := by
  have hane : ¬ a = "" := by
    intro he
    rw [he] at ha
    exact absurd ha (by decide)
  obtain ⟨t, ht⟩ := jsStartsWith_slash_data ha
  unfold posixJoin
  simp only [List.foldl_cons, List.foldl_nil, hane, if_false]
  by_cases hb : b = ""
  · simp only [hb, if_true]
    exact posixNormalize_abs a ha
  · simp only [hb, if_false]
    refine posixNormalize_abs _ ?_
    show jsStartsWith (a ++ "/" ++ b) "/" = true
    rw [jsStartsWith_iff, String.data_append, String.data_append, ht]
    rw [show ("/" : String).data = ['/'] from by decide]
    have hshape : ('/' :: t) ++ ['/'] ++ b.data = ['/'] ++ (t ++ ['/'] ++ b.data) := by simp
    rw [hshape]
    exact List.prefix_append _ _

theorem isWordChar_of_nameStart {c : Char} (h : isNameStartChar c = true) :
    isWordChar c = true := by
  unfold isNameStartChar at h
  unfold isWordChar Char.isAlphanum
  simp only [Bool.or_eq_true] at h
  rcases h with h1 | h1
  · simp [h1]
  · simp [h1]

/-! ## `expandEnvironmentVariables` on each reference form -/

/-- `%NAME%` resolves on every platform (names may contain parentheses). -/
theorem expand_pct (w : Bool) (envVars : List (String × String)) (pname v : String)
    (hname : validPctNameB pname = true)
    (hlook : lookupExact envVars pname = some v)
    (hv : noMetaB v = true) :
    expandEnvironmentVariables w envVars ("%" ++ pname ++ "%") = v := by
  obtain ⟨f, tail, hd, hf, htail⟩ := validPctNameB_parts hname
  obtain ⟨hv1, hv2, hv3⟩ := noMetaB_parts hv
  have hpc : ("%" : String).data = ['%'] := by decide
  have hdata : ("%" ++ pname ++ "%").data = '%' :: f :: (tail ++ ['%']) := by
    simp [String.data_append, hd, hpc]
  have hmk : String.mk (f :: tail) = pname := by rw [← hd]
  have hlk : ∀ w', getEnvValue w' envVars (String.mk (f :: tail)) = some v := by
    intro w'
    rw [hmk]
    exact getEnvValue_of_exact w' hlook
  have hinc : jsIncludes ("%" ++ pname ++ "%") '%' = true :=
    jsIncludes_iff.mpr (by rw [hdata]; exact List.mem_cons_self _ _)
  have hguard : (!(jsIncludes ("%" ++ pname ++ "%") '%') &&
      !(jsIncludes ("%" ++ pname ++ "%") '$') && !(jsIncludes ("%" ++ pname ++ "%") '!'))
      = false := by
    simp [hinc]
  cases w
  · rw [expandEnv_run_false _ _ hguard, hdata, scanPercentAux_subst _ f tail hf htail]
    simp only [hlk false]
    rw [scanPosixAux_no_trigger _ _ hv2]
  · rw [expandEnv_run_true _ _ hguard, hdata, scanPercentAux_subst _ f tail hf htail]
    simp only [hlk true]
    rw [scanBangAux_no_trigger _ _ hv3, scanDollarEnvAux_no_trigger _ _ hv2,
      scanPosixAux_no_trigger _ _ hv2]

/-- `$NAME` resolves on every platform. -/
theorem expand_dollar (w : Bool) (envVars : List (String × String)) (name v : String)
    (hname : validNameB name = true)
    (hlook : lookupExact envVars name = some v)
    (hv : noMetaB v = true) :
    expandEnvironmentVariables w envVars ("$" ++ name) = v := by
  obtain ⟨f, tail, hd, hf, htail⟩ := validNameB_parts hname
  obtain ⟨hv1, hv2, hv3⟩ := noMetaB_parts hv
  have hdl : ("$" : String).data = ['$'] := by decide
  have hdata : ("$" ++ name).data = '$' :: f :: tail := by
    simp [String.data_append, hd, hdl]
  have hmk : String.mk (f :: tail) = name := by rw [← hd]
  have hlk : ∀ w', getEnvValue w' envVars (String.mk (f :: tail)) = some v := by
    intro w'
    rw [hmk]
    exact getEnvValue_of_exact w' hlook
  have hinc : jsIncludes ("$" ++ name) '$' = true :=
    jsIncludes_iff.mpr (by rw [hdata]; exact List.mem_cons_self _ _)
  have hguard : (!(jsIncludes ("$" ++ name) '%') &&
      !(jsIncludes ("$" ++ name) '$') && !(jsIncludes ("$" ++ name) '!')) = false := by
    simp [hinc]
  have hnopct : '%' ∉ '$' :: f :: tail := by
    intro hm
    rcases List.mem_cons.mp hm with h | h
    · exact absurd h (by decide)
    · exact (name_mem_not_special hf htail h).1 rfl
  have hnobang : '!' ∉ '$' :: f :: tail := by
    intro hm
    rcases List.mem_cons.mp hm with h | h
    · exact absurd h (by decide)
    · exact (name_mem_not_special hf htail h).2.2.1 rfl
  have hnocol : ':' ∉ '$' :: f :: tail := by
    intro hm
    rcases List.mem_cons.mp hm with h | h
    · exact absurd h (by decide)
    · exact (name_mem_not_special hf htail h).2.2.2 rfl
  cases w
  · rw [expandEnv_run_false _ _ hguard, hdata, scanPercentAux_no_trigger _ _ hnopct,
      scanPosixAux_subst_name _ f tail hf htail]
    simp only [hlk false]
  · rw [expandEnv_run_true _ _ hguard, hdata, scanPercentAux_no_trigger _ _ hnopct,
      scanBangAux_no_trigger _ _ hnobang, scanDollarEnvAux_no_colon _ _ hnocol,
      scanPosixAux_subst_name _ f tail hf htail]
    simp only [hlk true]

/-- `$\x7bNAME\x7d` resolves on every platform. -/
theorem expand_braced (w : Bool) (envVars : List (String × String)) (name v : String)
    (hname : validNameB name = true)
    (hlook : lookupExact envVars name = some v)
    (hv : noMetaB v = true) :
    expandEnvironmentVariables w envVars ("$\x7b" ++ name ++ "\x7d") = v := by
  obtain ⟨g, tail, hd, hg, htail⟩ := validNameB_parts hname
  obtain ⟨hv1, hv2, hv3⟩ := noMetaB_parts hv
  have hd2 : ("$\x7b" : String).data = ['$', '{'] := by decide
  have hd3 : ("\x7d" : String).data = ['}'] := by decide
  have hdata : ("$\x7b" ++ name ++ "\x7d").data = '$' :: '{' :: g :: (tail ++ ['}']) := by
    simp [String.data_append, hd, hd2, hd3]
  have hmk : String.mk (g :: tail) = name := by rw [← hd]
  have hlk : ∀ w', getEnvValue w' envVars (String.mk (g :: tail)) = some v := by
    intro w'
    rw [hmk]
    exact getEnvValue_of_exact w' hlook
  have hinc : jsIncludes ("$\x7b" ++ name ++ "\x7d") '$' = true :=
    jsIncludes_iff.mpr (by rw [hdata]; exact List.mem_cons_self _ _)
  have hguard : (!(jsIncludes ("$\x7b" ++ name ++ "\x7d") '%') &&
      !(jsIncludes ("$\x7b" ++ name ++ "\x7d") '$') &&
      !(jsIncludes ("$\x7b" ++ name ++ "\x7d") '!')) = false := by
    simp [hinc]
  have hnopct : '%' ∉ '$' :: '{' :: g :: (tail ++ ['}']) := by
    intro hm
    rcases List.mem_cons.mp hm with h | hm
    · exact absurd h (by decide)
    rcases List.mem_cons.mp hm with h | hm
    · exact absurd h (by decide)
    rcases List.mem_cons.mp hm with h | hm
    · rw [← h] at hg
      exact absurd hg (by decide)
    rcases List.mem_append.mp hm with h | h
    · exact (isWordChar_not_special (htail _ h)).1 rfl
    · exact absurd (List.mem_singleton.mp h) (by decide)
  have hnobang : '!' ∉ '$' :: '{' :: g :: (tail ++ ['}']) := by
    intro hm
    rcases List.mem_cons.mp hm with h | hm
    · exact absurd h (by decide)
    rcases List.mem_cons.mp hm with h | hm
    · exact absurd h (by decide)
    rcases List.mem_cons.mp hm with h | hm
    · rw [← h] at hg
      exact absurd hg (by decide)
    rcases List.mem_append.mp hm with h | h
    · exact (isWordChar_not_special (htail _ h)).2.2.1 rfl
    · exact absurd (List.mem_singleton.mp h) (by decide)
  have hnocol : ':' ∉ '$' :: '{' :: g :: (tail ++ ['}']) := by
    intro hm
    rcases List.mem_cons.mp hm with h | hm
    · exact absurd h (by decide)
    rcases List.mem_cons.mp hm with h | hm
    · exact absurd h (by decide)
    rcases List.mem_cons.mp hm with h | hm
    · rw [← h] at hg
      exact absurd hg (by decide)
    rcases List.mem_append.mp hm with h | h
    · exact (isWordChar_not_special (htail _ h)).2.2.2 rfl
    · exact absurd (List.mem_singleton.mp h) (by decide)
  cases w
  · rw [expandEnv_run_false _ _ hguard, hdata, scanPercentAux_no_trigger _ _ hnopct,
      scanPosixAux_subst_braced _ g tail hg htail]
    simp only [hlk false]
  · rw [expandEnv_run_true _ _ hguard, hdata, scanPercentAux_no_trigger _ _ hnopct,
      scanBangAux_no_trigger _ _ hnobang, scanDollarEnvAux_no_colon _ _ hnocol,
      scanPosixAux_subst_braced _ g tail hg htail]
    simp only [hlk true]

/-- `!NAME!` resolves on Windows. -/
theorem expand_bang_win (envVars : List (String × String)) (name v : String)
    (hname : validNameB name = true)
    (hlook : lookupExact envVars name = some v)
    (hv : noMetaB v = true) :
    expandEnvironmentVariables true envVars ("!" ++ name ++ "!") = v := by
  obtain ⟨f, tail, hd, hf, htail⟩ := validNameB_parts hname
  obtain ⟨hv1, hv2, hv3⟩ := noMetaB_parts hv
  have hbd : ("!" : String).data = ['!'] := by decide
  have hdata : ("!" ++ name ++ "!").data = '!' :: f :: (tail ++ ['!']) := by
    simp [String.data_append, hd, hbd]
  have hmk : String.mk (f :: tail) = name := by rw [← hd]
  have hlk : getEnvValue true envVars (String.mk (f :: tail)) = some v := by
    rw [hmk]
    exact getEnvValue_of_exact true hlook
  have hinc : jsIncludes ("!" ++ name ++ "!") '!' = true :=
    jsIncludes_iff.mpr (by rw [hdata]; exact List.mem_cons_self _ _)
  have hguard : (!(jsIncludes ("!" ++ name ++ "!") '%') &&
      !(jsIncludes ("!" ++ name ++ "!") '$') && !(jsIncludes ("!" ++ name ++ "!") '!'))
      = false := by
    simp [hinc]
  have hnopct : '%' ∉ '!' :: f :: (tail ++ ['!']) := by
    intro hm
    rcases List.mem_cons.mp hm with h | hm
    · exact absurd h (by decide)
    rcases List.mem_cons.mp hm with h | hm
    · rw [← h] at hf
      exact absurd hf (by decide)
    rcases List.mem_append.mp hm with h | h
    · exact (isWordChar_not_special (htail _ h)).1 rfl
    · exact absurd (List.mem_singleton.mp h) (by decide)
  rw [expandEnv_run_true _ _ hguard, hdata, scanPercentAux_no_trigger _ _ hnopct,
    scanBangAux_subst _ f tail hf htail]
  simp only [hlk]
  rw [scanDollarEnvAux_no_trigger _ _ hv2, scanPosixAux_no_trigger _ _ hv2]

/-- `!NAME!` is NOT recognized on POSIX: it survives verbatim even when the
variable resolves. -/
theorem expand_bang_posix (envVars : List (String × String)) (name : String)
    (hname : validNameB name = true) :
    expandEnvironmentVariables false envVars ("!" ++ name ++ "!") = "!" ++ name ++ "!" := by
  obtain ⟨f, tail, hd, hf, htail⟩ := validNameB_parts hname
  have hbd : ("!" : String).data = ['!'] := by decide
  have hdata : ("!" ++ name ++ "!").data = '!' :: f :: (tail ++ ['!']) := by
    simp [String.data_append, hd, hbd]
  have hinc : jsIncludes ("!" ++ name ++ "!") '!' = true :=
    jsIncludes_iff.mpr (by rw [hdata]; exact List.mem_cons_self _ _)
  have hguard : (!(jsIncludes ("!" ++ name ++ "!") '%') &&
      !(jsIncludes ("!" ++ name ++ "!") '$') && !(jsIncludes ("!" ++ name ++ "!") '!'))
      = false := by
    simp [hinc]
  have hnopct : '%' ∉ '!' :: f :: (tail ++ ['!']) := by
    intro hm
    rcases List.mem_cons.mp hm with h | hm
    · exact absurd h (by decide)
    rcases List.mem_cons.mp hm with h | hm
    · rw [← h] at hf
      exact absurd hf (by decide)
    rcases List.mem_append.mp hm with h | h
    · exact (isWordChar_not_special (htail _ h)).1 rfl
    · exact absurd (List.mem_singleton.mp h) (by decide)
  have hnodollar : '$' ∉ '!' :: f :: (tail ++ ['!']) := by
    intro hm
    rcases List.mem_cons.mp hm with h | hm
    · exact absurd h (by decide)
    rcases List.mem_cons.mp hm with h | hm
    · rw [← h] at hf
      exact absurd hf (by decide)
    rcases List.mem_append.mp hm with h | h
    · exact (isWordChar_not_special (htail _ h)).2.1 rfl
    · exact absurd (List.mem_singleton.mp h) (by decide)
  rw [expandEnv_run_false _ _ hguard, hdata, scanPercentAux_no_trigger _ _ hnopct,
    scanPosixAux_no_trigger _ _ hnodollar, ← hdata]

/-- `$env:NAME` resolves on Windows. -/
theorem expand_env_win (envVars : List (String × String)) (name v : String)
    (hname : validNameB name = true)
    (hlook : lookupExact envVars name = some v)
    (hv : noMetaB v = true) :
    expandEnvironmentVariables true envVars ("$env:" ++ name) = v := by
  obtain ⟨f, tail, hd, hf, htail⟩ := validNameB_parts hname
  obtain ⟨hv1, hv2, hv3⟩ := noMetaB_parts hv
  have hed : ("$env:" : String).data = ['$', 'e', 'n', 'v', ':'] := by decide
  have hdata : ("$env:" ++ name).data = '$' :: 'e' :: 'n' :: 'v' :: ':' :: f :: tail := by
    simp [String.data_append, hd, hed]
  have hmk : String.mk (f :: tail) = name := by rw [← hd]
  have hlk : getEnvValue true envVars (String.mk (f :: tail)) = some v := by
    rw [hmk]
    exact getEnvValue_of_exact true hlook
  have hinc : jsIncludes ("$env:" ++ name) '$' = true :=
    jsIncludes_iff.mpr (by rw [hdata]; exact List.mem_cons_self _ _)
  have hguard : (!(jsIncludes ("$env:" ++ name) '%') &&
      !(jsIncludes ("$env:" ++ name) '$') && !(jsIncludes ("$env:" ++ name) '!'))
      = false := by
    simp [hinc]
  have hnopct : '%' ∉ '$' :: 'e' :: 'n' :: 'v' :: ':' :: f :: tail := by
    intro hm
    rcases List.mem_cons.mp hm with h | hm
    · exact absurd h (by decide)
    rcases List.mem_cons.mp hm with h | hm
    · exact absurd h (by decide)
    rcases List.mem_cons.mp hm with h | hm
    · exact absurd h (by decide)
    rcases List.mem_cons.mp hm with h | hm
    · exact absurd h (by decide)
    rcases List.mem_cons.mp hm with h | hm
    · exact absurd h (by decide)
    exact (name_mem_not_special hf htail hm).1 rfl
  have hnobang : '!' ∉ '$' :: 'e' :: 'n' :: 'v' :: ':' :: f :: tail := by
    intro hm
    rcases List.mem_cons.mp hm with h | hm
    · exact absurd h (by decide)
    rcases List.mem_cons.mp hm with h | hm
    · exact absurd h (by decide)
    rcases List.mem_cons.mp hm with h | hm
    · exact absurd h (by decide)
    rcases List.mem_cons.mp hm with h | hm
    · exact absurd h (by decide)
    rcases List.mem_cons.mp hm with h | hm
    · exact absurd h (by decide)
    exact (name_mem_not_special hf htail hm).2.2.1 rfl
  rw [expandEnv_run_true _ _ hguard, hdata, scanPercentAux_no_trigger _ _ hnopct,
    scanBangAux_no_trigger _ _ hnobang, scanDollarEnvAux_subst _ f tail hf htail]
  simp only [hlk]
  rw [scanPosixAux_no_trigger _ _ hv2]

/-- `$env:NAME` is NOT recognized on POSIX: the `$NAME` pass reads it as a
reference to a variable named `env`, and when none exists the text survives
verbatim. -/
theorem expand_env_posix (envVars : List (String × String)) (name : String)
    (hname : validNameB name = true)
    (henvnone : lookupExact envVars "env" = Option.none) :
    expandEnvironmentVariables false envVars ("$env:" ++ name) = "$env:" ++ name := by
  obtain ⟨f, tail, hd, hf, htail⟩ := validNameB_parts hname
  have hed : ("$env:" : String).data = ['$', 'e', 'n', 'v', ':'] := by decide
  have hdata : ("$env:" ++ name).data = '$' :: 'e' :: 'n' :: 'v' :: ':' :: f :: tail := by
    simp [String.data_append, hd, hed]
  have hinc : jsIncludes ("$env:" ++ name) '$' = true :=
    jsIncludes_iff.mpr (by rw [hdata]; exact List.mem_cons_self _ _)
  have hguard : (!(jsIncludes ("$env:" ++ name) '%') &&
      !(jsIncludes ("$env:" ++ name) '$') && !(jsIncludes ("$env:" ++ name) '!'))
      = false := by
    simp [hinc]
  have hnopct : '%' ∉ '$' :: 'e' :: 'n' :: 'v' :: ':' :: f :: tail := by
    intro hm
    rcases List.mem_cons.mp hm with h | hm
    · exact absurd h (by decide)
    rcases List.mem_cons.mp hm with h | hm
    · exact absurd h (by decide)
    rcases List.mem_cons.mp hm with h | hm
    · exact absurd h (by decide)
    rcases List.mem_cons.mp hm with h | hm
    · exact absurd h (by decide)
    rcases List.mem_cons.mp hm with h | hm
    · exact absurd h (by decide)
    exact (name_mem_not_special hf htail hm).1 rfl
  have hword : ∀ c ∈ f :: tail, isWordChar c = true := by
    intro c hc
    rcases List.mem_cons.mp hc with h | h
    · subst h
      exact isWordChar_of_nameStart hf
    · exact htail c h
  have hmkenv : String.mk ['e', 'n', 'v'] = "env" := by decide
  have hnv : getEnvValue false envVars (String.mk ['e', 'n', 'v']) = Option.none := by
    rw [hmkenv]
    exact getEnvValue_false_none henvnone
  rw [expandEnv_run_false _ _ hguard, hdata, scanPercentAux_no_trigger _ _ hnopct,
    scanPosixAux_env_verbatim _ (f :: tail) hword hnv, ← hdata]

/-! ## Home expansion with an empty environment -/

theorem expandHomePath_nil_env (env : JsEnv) (henv : env.envVars = []) (p : String) :
    expandHomePath env p =
      (if p = "~" then env.homedir
       else if jsStartsWith p "~/" then posixJoin [env.homedir, jsDrop p 2]
       else if jsStartsWith p "~\\" then posixJoin [env.homedir, jsDrop p 2]
       else p) := by
  unfold expandHomePath
  rw [henv, expandEnv_nil]

theorem expandHomePath_abs_fixed (env : JsEnv) (henv : env.envVars = []) (y : String)
    (hy : jsStartsWith y "/" = true) : expandHomePath env y = y := by
  rw [expandHomePath_nil_env env henv]
  obtain ⟨hne, h2, h3⟩ := abs_not_tilde y hy
  rw [if_neg hne]
  simp only [h2, h3, Bool.false_eq_true, if_false]

/-- **C7.** The normalizer's expansion pass handles all five reference forms,
but not all on every platform: for a resolvable variable whose value contains
no further trigger characters, `%NAME%` (parentheses allowed in the name),
`$NAME` and `$\x7bNAME\x7d` substitute on every platform, while `!NAME!` and
`$env:NAME` substitute only on Windows and survive verbatim on POSIX even when
the variable resolves; with an empty environment (every reference
unresolvable) expansion is the identity on every input — nothing is deleted
and no error is raised. -/
theorem expansion_forms (envVars : List (String × String)) (pname name v : String)
    (hpname : validPctNameB pname = true)
    (hname : validNameB name = true)
    (hv : noMetaB v = true)
    (hplook : lookupExact envVars pname = some v)
    (hlook : lookupExact envVars name = some v)
    (henv : lookupExact envVars "env" = Option.none) :
    (∀ w, expandEnvironmentVariables w envVars ("%" ++ pname ++ "%") = v) ∧
    (∀ w, expandEnvironmentVariables w envVars ("$" ++ name) = v) ∧
    (∀ w, expandEnvironmentVariables w envVars ("$\x7b" ++ name ++ "\x7d") = v) ∧
    expandEnvironmentVariables true envVars ("!" ++ name ++ "!") = v ∧
    expandEnvironmentVariables true envVars ("$env:" ++ name) = v ∧
    expandEnvironmentVariables false envVars ("!" ++ name ++ "!") = "!" ++ name ++ "!" ∧
    expandEnvironmentVariables false envVars ("$env:" ++ name) = "$env:" ++ name ∧
    (∀ w x, expandEnvironmentVariables w [] x = x) :=
  ⟨fun w => expand_pct w envVars pname v hpname hplook hv,
   fun w => expand_dollar w envVars name v hname hlook hv,
   fun w => expand_braced w envVars name v hname hlook hv,
   expand_bang_win envVars name v hname hlook hv,
   expand_env_win envVars name v hname hlook hv,
   expand_bang_posix envVars name hname,
   expand_env_posix envVars name hname henv,
   fun w x => expandEnv_nil w x⟩

/-- **C7 counterexample.** The claim says `!NAME!` and `$env:NAME` are
recognized on every platform; with `FOO=bar` the POSIX run leaves both
verbatim while the Windows run substitutes them. -/
theorem expansion_forms_cex :
    expandEnvironmentVariables false [("FOO", "bar")] "!FOO!" = "!FOO!" ∧
    expandEnvironmentVariables true [("FOO", "bar")] "!FOO!" = "bar" ∧
    expandEnvironmentVariables false [("FOO", "bar")] "$env:FOO" = "$env:FOO" ∧
    expandEnvironmentVariables true [("FOO", "bar")] "$env:FOO" = "bar" := by
  decide

/-- **C7 witness.** All the hypotheses hold at a concrete environment
(`ProgramFiles(x86)` and `HOME` both `/pf`) and the theorem's conclusions
evaluate there. -/
theorem expansion_forms_witness :
    validPctNameB "ProgramFiles(x86)" = true ∧
    validNameB "HOME" = true ∧
    noMetaB "/pf" = true ∧
    expandEnvironmentVariables false [("ProgramFiles(x86)", "/pf"), ("HOME", "/pf")]
      ("%" ++ "ProgramFiles(x86)" ++ "%") = "/pf" ∧
    expandEnvironmentVariables false [("ProgramFiles(x86)", "/pf"), ("HOME", "/pf")]
      ("$" ++ "HOME") = "/pf" ∧
    expandEnvironmentVariables false [("ProgramFiles(x86)", "/pf"), ("HOME", "/pf")]
      ("$\x7b" ++ "HOME" ++ "\x7d") = "/pf" ∧
    expandEnvironmentVariables true [("ProgramFiles(x86)", "/pf"), ("HOME", "/pf")]
      ("!" ++ "HOME" ++ "!") = "/pf" ∧
    expandEnvironmentVariables true [("ProgramFiles(x86)", "/pf"), ("HOME", "/pf")]
      ("$env:" ++ "HOME") = "/pf" ∧
    expandEnvironmentVariables false [("ProgramFiles(x86)", "/pf"), ("HOME", "/pf")]
      ("!" ++ "HOME" ++ "!") = "!" ++ "HOME" ++ "!" ∧
    expandEnvironmentVariables false [("ProgramFiles(x86)", "/pf"), ("HOME", "/pf")]
      ("$env:" ++ "HOME") = "$env:" ++ "HOME" ∧
    expandEnvironmentVariables false [] "%UNSET%" = "%UNSET%" := by
  obtain ⟨h1, h2, h3, h4, h5, h6, h7, h8⟩ :=
    expansion_forms [("ProgramFiles(x86)", "/pf"), ("HOME", "/pf")]
      "ProgramFiles(x86)" "HOME" "/pf" (by decide) (by decide) (by decide)
      (by decide) (by decide) (by decide)
  exact ⟨by decide, by decide, by decide, h1 false, h2 false, h3 false, h4, h5, h6, h7,
    h8 false "%UNSET%"⟩

/-- **C8.** Idempotence of the pre-resolution normalizer does not hold for
every environment state (an environment value may itself contain a reference
that only the second run expands); it does hold whenever the process
environment is empty and the home directory is absolute: expansion is then the
identity, and the `~` branches produce absolute paths that no branch of a
second run rewrites. -/
theorem normalize_idempotent (env : JsEnv) (henv : env.envVars = [])
    (hhome : jsStartsWith env.homedir "/" = true) (x : String) :
    normalizePathBeforeResolution env (normalizePathBeforeResolution env x) =
      normalizePathBeforeResolution env x := by
  unfold normalizePathBeforeResolution translateMsysPath
  rw [expandHomePath_nil_env env henv x]
  by_cases h1 : x = "~"
  · rw [if_pos h1]
    exact expandHomePath_abs_fixed env henv _ hhome
  · rw [if_neg h1]
    by_cases h2 : jsStartsWith x "~/" = true
    · rw [if_pos h2]
      exact expandHomePath_abs_fixed env henv _ (posixJoin_two_abs _ _ hhome)
    · rw [if_neg h2]
      by_cases h3 : jsStartsWith x "~\\" = true
      · rw [if_pos h3]
        exact expandHomePath_abs_fixed env henv _ (posixJoin_two_abs _ _ hhome)
      · rw [if_neg h3]
        rw [expandHomePath_nil_env env henv x, if_neg h1, if_neg h2, if_neg h3]

/-- **C8 counterexample.** With `A=$B` and `B=x`, normalizing `$A` once gives
`$B`, normalizing twice gives `x`: the claimed idempotence for every
environment state fails. -/
theorem normalize_idempotent_cex :
    normalizePathBeforeResolution (JsEnv.mk [("A", "$B"), ("B", "x")] "/home/u" "/cwd")
        (normalizePathBeforeResolution (JsEnv.mk [("A", "$B"), ("B", "x")] "/home/u" "/cwd")
          "$A") ≠
      normalizePathBeforeResolution (JsEnv.mk [("A", "$B"), ("B", "x")] "/home/u" "/cwd")
        "$A" := by
  decide

/-- **C8 witness.** The amended idempotence at a concrete state: empty
environment, absolute home `/home/u`, input `~/notes`. -/
theorem normalize_idempotent_witness :
    (JsEnv.mk [] "/home/u" "/cwd").envVars = [] ∧
    jsStartsWith (JsEnv.mk [] "/home/u" "/cwd").homedir "/" = true ∧
    normalizePathBeforeResolution (JsEnv.mk [] "/home/u" "/cwd")
        (normalizePathBeforeResolution (JsEnv.mk [] "/home/u" "/cwd") "~/notes") =
      normalizePathBeforeResolution (JsEnv.mk [] "/home/u" "/cwd") "~/notes" :=
  ⟨rfl, by decide,
   normalize_idempotent (JsEnv.mk [] "/home/u" "/cwd") rfl (by decide) "~/notes"⟩

end Claudian
